import Mathlib

/-!
Verification of the PrivacyLens temporal redaction engine.

Shallow embedding of the Python sources:
  - yolo-clean/blur.py      (confidence-triggered pipeline: `Yolo` namespace)
  - backend/pipeline/blur.py (curated pipeline: `Backend` namespace)
  - backend/pipeline/extract.py (`Extract` namespace)
  - backend/main.py          (`Main` namespace)

Modelling decisions, applied throughout:
  * A frame is a record of its index, height, width and a set (list) of
    pixel coordinates that have been overwritten by the Gaussian blur.
    Pixel values are abstracted away: every claim treated here is about
    WHICH pixels are blurred, not about the numeric content the blur
    writes (cv2.GaussianBlur's floating-point output is not modelled).
  * numpy slice indexing `frame[y1:y2, x1:x2]` is modelled exactly,
    including the Python semantics of negative indices (they count from
    the end of the axis) and of bounds larger than the axis (clipped).
  * Detection confidences are floats compared only with `>=`; they are
    modelled as integers on an arbitrary fixed scale, which is faithful
    for every order comparison the code performs.
  * `cv2.putText` debug labels draw text pixels; they are not part of the
    blur mask and are not modelled.
-/

/-- Pixel coordinates, as (row, column) = (y, x). -/
abbrev Pix := Nat × Nat

/-- A bounding box in xyxy order, exactly the `box` array unpacked as
`x1, y1, x2, y2 = box` in the sources.  Coordinates are the detector's
values cast with `.astype(int)`, hence integers of either sign. -/
structure Box where
  x1 : Int
  y1 : Int
  x2 : Int
  y2 : Int
deriving DecidableEq

/-- A video frame: its stream index, dimensions, and the set of pixel
coordinates that the blur has overwritten (empty for a pristine frame). -/
structure Frame where
  idx : Nat
  h : Nat
  w : Nat
  blurred : List Pix
deriving DecidableEq

/-- Python slice-bound normalization on an axis of length `n`: a negative
bound counts from the end of the axis (floored at 0), a nonnegative bound
is clipped to `n`.  This is the exact rule numpy applies to the bounds of
`frame[y1:y2, x1:x2]`. -/
def sliceIdx (n : Nat) (c : Int) : Nat :=
  if c < 0 then ((n : Int) + c).toNat else min c.toNat n

/-- Clamping of a bound into [0, n], as the spec describes the renderer:
"clamps to [0, width) x [0, height)". -/
def clampIdx (n : Nat) (c : Int) : Nat :=
  (min c (n : Int)).toNat

/-- The pixels addressed by `frame[y1:y2, x1:x2]` on an `h` by `w` frame,
under Python slice semantics. -/
def sliceRegion (h w : Nat) (b : Box) : List Pix :=
  ((List.range (sliceIdx h b.y2 - sliceIdx h b.y1)).map (· + sliceIdx h b.y1)).flatMap
    (fun y => ((List.range (sliceIdx w b.x2 - sliceIdx w b.x1)).map (· + sliceIdx w b.x1)).map
      (fun x => (y, x)))

/-- The pixels inside the bbox after clamping it to frame bounds; this is
the region the spec says the renderer blurs. -/
def clampRegion (h w : Nat) (b : Box) : List Pix :=
  ((List.range (clampIdx h b.y2 - clampIdx h b.y1)).map (· + clampIdx h b.y1)).flatMap
    (fun y => ((List.range (clampIdx w b.x2 - clampIdx w b.x1)).map (· + clampIdx w b.x1)).map
      (fun x => (y, x)))

/-- `apply_blur(frame, box)` from blur.py (identical in all three copies):
takes `roi = frame[y1:y2, x1:x2]` and, if `roi.size > 0`, overwrites the
region with its Gaussian blur.  In the mask model the overwritten pixels
are recorded in `blurred`. -/
def apply_blur (frame : Frame) (box : Box) : Frame :=
  let roi := sliceRegion frame.h frame.w box
  if roi.isEmpty then frame
  else { frame with blurred := frame.blurred ++ roi }

theorem mem_sliceRegion {h w : Nat} {b : Box} {p : Pix} :
    p ∈ sliceRegion h w b ↔
      sliceIdx h b.y1 ≤ p.1 ∧ p.1 < sliceIdx h b.y2 ∧
      sliceIdx w b.x1 ≤ p.2 ∧ p.2 < sliceIdx w b.x2 := by
  obtain ⟨py, px⟩ := p
  simp only [sliceRegion, List.mem_flatMap, List.mem_map, List.mem_range, Prod.mk.injEq]
  constructor
  · rintro ⟨y, ⟨c, hc, rfl⟩, x, ⟨d, hd, rfl⟩, h1, h2⟩
    omega
  · rintro ⟨h1, h2, h3, h4⟩
    exact ⟨py, ⟨py - sliceIdx h b.y1, by omega, by omega⟩,
      px, ⟨px - sliceIdx w b.x1, by omega, by omega⟩, rfl, rfl⟩

theorem mem_clampRegion {h w : Nat} {b : Box} {p : Pix} :
    p ∈ clampRegion h w b ↔
      clampIdx h b.y1 ≤ p.1 ∧ p.1 < clampIdx h b.y2 ∧
      clampIdx w b.x1 ≤ p.2 ∧ p.2 < clampIdx w b.x2 := by
  obtain ⟨py, px⟩ := p
  simp only [clampRegion, List.mem_flatMap, List.mem_map, List.mem_range, Prod.mk.injEq]
  constructor
  · rintro ⟨y, ⟨c, hc, rfl⟩, x, ⟨d, hd, rfl⟩, h1, h2⟩
    omega
  · rintro ⟨h1, h2, h3, h4⟩
    exact ⟨py, ⟨py - clampIdx h b.y1, by omega, by omega⟩,
      px, ⟨px - clampIdx w b.x1, by omega, by omega⟩, rfl, rfl⟩

theorem sliceIdx_eq_clampIdx_of_nonneg {n : Nat} {c : Int} (hc : 0 ≤ c) :
    sliceIdx n c = clampIdx n c := by
  unfold sliceIdx clampIdx
  rw [if_neg (by omega)]
  omega

/-- Membership in the blurred mask after `apply_blur`: exactly the old
mask plus the slice-addressed region (an empty region changes nothing,
whether or not the `roi.size > 0` guard fires). -/
theorem mem_apply_blur {f : Frame} {b : Box} {p : Pix} :
    p ∈ (apply_blur f b).blurred ↔ p ∈ f.blurred ∨ p ∈ sliceRegion f.h f.w b := by
  unfold apply_blur
  by_cases hr : (sliceRegion f.h f.w b).isEmpty
  · rw [List.isEmpty_iff] at hr
    simp [hr]
  · simp [hr]

theorem apply_blur_idx (f : Frame) (b : Box) : (apply_blur f b).idx = f.idx := by
  unfold apply_blur
  by_cases hr : (sliceRegion f.h f.w b).isEmpty <;> simp [hr]

theorem apply_blur_h (f : Frame) (b : Box) : (apply_blur f b).h = f.h := by
  unfold apply_blur
  by_cases hr : (sliceRegion f.h f.w b).isEmpty <;> simp [hr]

theorem apply_blur_w (f : Frame) (b : Box) : (apply_blur f b).w = f.w := by
  unfold apply_blur
  by_cases hr : (sliceRegion f.h f.w b).isEmpty <;> simp [hr]

theorem apply_blur_mono {f : Frame} {b : Box} {p : Pix} (hp : p ∈ f.blurred) :
    p ∈ (apply_blur f b).blurred := mem_apply_blur.mpr (Or.inl hp)

/-- A bounding box all of whose coordinates are nonnegative. -/
def nonnegBox (b : Box) : Prop := 0 ≤ b.x1 ∧ 0 ≤ b.y1 ∧ 0 ≤ b.x2 ∧ 0 ≤ b.y2

instance (b : Box) : Decidable (nonnegBox b) := by unfold nonnegBox; infer_instance

/-- Claim C5 (amended): `apply_blur` raises no error on any box (it is a
total function), and for every box with NONNEGATIVE coordinates it behaves
exactly as if the box were clamped to [0, width) x [0, height): the pixels
it marks are the old mask plus the clamped region, and a zero-area clamped
region is a no-op.  (For boxes with negative coordinates Python slicing
counts from the far edge of the axis instead of clamping; see the
counterexample.) -/
theorem C5_apply_blur_clamps_nonneg (f : Frame) (b : Box) (hb : nonnegBox b) :
    ∀ p : Pix, p ∈ (apply_blur f b).blurred ↔ p ∈ f.blurred ∨ p ∈ clampRegion f.h f.w b := by
  intro p
  obtain ⟨h1, h2, h3, h4⟩ := hb
  rw [mem_apply_blur]
  constructor
  · rintro (hp | hp)
    · exact Or.inl hp
    · refine Or.inr ?_
      rw [mem_sliceRegion] at hp
      rw [mem_clampRegion]
      rw [sliceIdx_eq_clampIdx_of_nonneg h1, sliceIdx_eq_clampIdx_of_nonneg h2,
        sliceIdx_eq_clampIdx_of_nonneg h3, sliceIdx_eq_clampIdx_of_nonneg h4] at hp
      tauto
  · rintro (hp | hp)
    · exact Or.inl hp
    · refine Or.inr ?_
      rw [mem_clampRegion] at hp
      rw [mem_sliceRegion]
      rw [sliceIdx_eq_clampIdx_of_nonneg h1, sliceIdx_eq_clampIdx_of_nonneg h2,
        sliceIdx_eq_clampIdx_of_nonneg h3, sliceIdx_eq_clampIdx_of_nonneg h4]
      tauto

/-- Claim C5 witness: the clamping description evaluated on a concrete
in-bounds box on a 4 x 4 frame. -/
theorem C5_witness :
    nonnegBox ⟨1, 1, 3, 3⟩ ∧
      (∀ p : Pix, p ∈ (apply_blur ⟨0, 4, 4, []⟩ ⟨1, 1, 3, 3⟩).blurred ↔
        p ∈ ([] : List Pix) ∨ p ∈ clampRegion 4 4 ⟨1, 1, 3, 3⟩) :=
  ⟨by decide, C5_apply_blur_clamps_nonneg ⟨0, 4, 4, []⟩ ⟨1, 1, 3, 3⟩ (by decide)⟩

/-- Claim C5 counterexample: the box (-3, -3, -1, -1) lies entirely
outside the bounds of a 4 x 4 frame (all coordinates negative), yet
`apply_blur` mutates in-frame pixels: Python's negative indices address
`frame[1:3, 1:3]`, so pixel (1, 1) is overwritten.  This refutes "for any
box lying entirely outside the frame bounds (including boxes with
negative coordinates), no pixel of the frame is mutated". -/
theorem C5_counterexample :
    (Box.mk (-3) (-3) (-1) (-1)).x2 < 0 ∧ (Box.mk (-3) (-3) (-1) (-1)).y2 < 0 ∧
      ((1, 1) : Pix) ∈ (apply_blur ⟨0, 4, 4, []⟩ ⟨-3, -3, -1, -1⟩).blurred ∧
      apply_blur ⟨0, 4, 4, []⟩ ⟨-3, -3, -1, -1⟩ ≠ ⟨0, 4, 4, []⟩ := by
  refine ⟨by decide, by decide, ?_, ?_⟩ <;> decide

/-- One detection row: the i-th entries of `boxes_xyxy`, `confidences`,
`track_ids` in process_frame.  Confidence is on an integer scale (floats
are only ever compared with `>=`). -/
structure Det where
  box : Box
  conf : Int
  track_id : Int
deriving DecidableEq

/-- The `result.boxes` payload: either the tracker supplied no ids
(`result.boxes.id is None`; the raw xyxy/conf rows are retained but the
code never uses them in that case) or a list of detections. -/
inductive BoxesData where
  | noIds (raw : List (Box × Int))
  | withIds (dets : List Det)
deriving DecidableEq

/-- A per-frame YOLO result as the blur code reads it: `boxes = none`
models `result.boxes is None` (accessing `.xyxy` on it raises
AttributeError). -/
structure Result where
  boxes : Option BoxesData
deriving DecidableEq

/-- The detections of a result, empty unless boxes and track ids are
present. -/
def detsOf (r : Result) : List Det :=
  match r.boxes with
  | some (.withIds dets) => dets
  | _ => []

/-- `deque(maxlen=BUFFER_FRAMES)` append: at capacity the oldest element
is silently discarded. -/
def dequeAppend {α : Type} (cap : Nat) (buf : List α) (e : α) : List α :=
  if buf.length = cap then buf.drop 1 ++ [e] else buf ++ [e]

namespace Yolo

/-- BUFFER_FRAMES = 10 (yolo-clean/blur.py line 7). -/
def BUFFER_FRAMES : Nat := 10

/-- The module-level activation state: `blurred_ids` and `blur_counters`
from yolo-clean/blur.py lines 5-6 (dict modelled as an association
list in insertion order). -/
structure ActSt where
  blurred_ids : List Int
  blur_counters : List (Int × Nat)
deriving DecidableEq

/-- `blur_counters.get(track_id, 0)`. -/
def getCounter (cs : List (Int × Nat)) (t : Int) : Nat :=
  ((cs.lookup t).getD 0)

/-- `blur_counters[track_id] = v` on a Python dict: overwrite if present,
else append. -/
def setCounter (cs : List (Int × Nat)) (t : Int) (v : Nat) : List (Int × Nat) :=
  if cs.any (fun p => p.1 = t) then cs.map (fun p => if p.1 = t then (p.1, v) else p)
  else cs ++ [(t, v)]

/-- The loop state inside process_frame: the frame being mutated, the
accumulated `new_ids`, and the global activation state. -/
structure DState where
  frame : Frame
  new_ids : List Int
  act : ActSt
deriving DecidableEq

/-- One iteration of the `for i, box in enumerate(boxes_xyxy)` loop in
process_frame (yolo-clean/blur.py lines 68-85): activate on
`conf >= conf_lvl` for an unseen track (recording the counter), then blur
when the track is activated or its counter is positive.  The
`cv2.putText` debug label is not part of the blur mask. -/
def detStep (conf_lvl : Int) (s : DState) (d : Det) : DState :=
  let act1 :=
    if conf_lvl ≤ d.conf ∧ d.track_id ∉ s.act.blurred_ids then
      { blurred_ids := s.act.blurred_ids ++ [d.track_id],
        blur_counters := setCounter s.act.blur_counters d.track_id BUFFER_FRAMES }
    else s.act
  let new1 :=
    if conf_lvl ≤ d.conf ∧ d.track_id ∉ s.act.blurred_ids then s.new_ids ++ [d.track_id]
    else s.new_ids
  let frame1 :=
    if d.track_id ∈ act1.blurred_ids ∨ 0 < getCounter act1.blur_counters d.track_id then
      apply_blur s.frame d.box
    else s.frame
  ⟨frame1, new1, act1⟩

/-- process_frame (yolo-clean/blur.py lines 51-87): AttributeError when
`result.boxes` is None (the code reads `result.boxes.xyxy` first), early
return with no new ids when the tracker supplied no ids, otherwise the
detection loop. -/
def process_frame (frame : Frame) (r : Result) (conf_lvl : Int) (act : ActSt) :
    Except Unit DState :=
  match r.boxes with
  | none => .error ()
  | some (.noIds _) => .ok ⟨frame, [], act⟩
  | some (.withIds dets) => .ok (dets.foldl (detStep conf_lvl) ⟨frame, [], act⟩)

/-- retro_blur (yolo-clean/blur.py lines 90-102): blur every detection of
a newly activated id in a buffered frame; AttributeError when
`result.boxes` is None, early return when ids are missing. -/
def retro_blur (frame : Frame) (r : Result) (new_ids : List Int) : Except Unit Frame :=
  match r.boxes with
  | none => .error ()
  | some (.noIds _) => .ok frame
  | some (.withIds dets) =>
      .ok (dets.foldl (fun f d => if d.track_id ∈ new_ids then apply_blur f d.box else f) frame)

/-- update_counters (yolo-clean/blur.py lines 114-117):
`max(0, counter - 1)` for every tracked id (Nat subtraction saturates at 0
exactly like the `max`). -/
def update_counters (act : ActSt) : ActSt :=
  { act with blur_counters := act.blur_counters.map (fun p => (p.1, p.2 - 1)) }

/-- The `for past_frame, past_result in frame_buffer: retro_blur(...)`
loop.  The Boolean records whether an iteration raised (in which case the
loop stops and subsequent entries are untouched, as the Python exception
propagates; an entry whose retro_blur raises is itself unmutated because
the AttributeError fires before any blurring). -/
def retroFoldGo (new_ids : List Int) : List (Frame × Result) → List (Frame × Result) × Bool
  | [] => ([], false)
  | (f, r) :: rest =>
    match retro_blur f r new_ids with
    | .error _ => ((f, r) :: rest, true)
    | .ok f1 =>
      let (rest1, c) := retroFoldGo new_ids rest
      ((f1, r) :: rest1, c)

/-- The state of one run of blur_video.  `output` is the sequence handed
to `out.write`; each written frame is annotated (as specification-only
ghost data, unused by the transition function) with the Result it was
buffered with and the value of `blurred_ids` at the moment it was
written. -/
structure PState where
  act : ActSt
  buffer : List (Frame × Result)
  output : List (Frame × Result × List Int)
  crashed : Bool

/-- The tail of the loop body once counters are updated: write out the
oldest buffered frame when the buffer is at capacity (lines 38-40),
recording the current `blurred_ids` as the ghost snapshot of the write. -/
def emitOldest (act2 : ActSt) (buf : List (Frame × Result))
    (output : List (Frame × Result × List Int)) : PState :=
  if buf.length = BUFFER_FRAMES then
    match buf with
    | [] => ⟨act2, [], output, false⟩
    | e :: rest => ⟨act2, rest, output ++ [(e.1, e.2, act2.blurred_ids)], false⟩
  else ⟨act2, buf, output, false⟩

/-- One iteration of the `for frame, result in results_data` loop of
blur_video (yolo-clean/blur.py lines 22-40): buffer the frame, run
process_frame (the buffered entry aliases the mutated frame), retro-blur
the whole buffer when ids were newly activated, decrement counters, and
write out the oldest frame once the buffer is at capacity.  A raised
exception stops the whole run (`crashed`). -/
def blurStep (conf_lvl : Int) (st : PState) (inp : Frame × Result) : PState :=
  if st.crashed then st
  else
    match process_frame inp.1 inp.2 conf_lvl st.act with
    | .error _ => { st with buffer := dequeAppend BUFFER_FRAMES st.buffer inp, crashed := true }
    | .ok s =>
      let buf1 := dequeAppend BUFFER_FRAMES st.buffer (s.frame, inp.2)
      let rc := if s.new_ids.isEmpty then (buf1, false) else retroFoldGo s.new_ids buf1
      if rc.2 then { act := s.act, buffer := rc.1, output := st.output, crashed := true }
      else emitOldest (update_counters s.act) rc.1 st.output

/-- The initial state: blur_video clears `blurred_ids` and `blur_counters`
on entry. -/
def initSt : PState := ⟨⟨[], []⟩, [], [], false⟩

/-- blur_video (yolo-clean/blur.py lines 9-48).  An empty `results_data`
raises IndexError at `results_data[0][0]` before anything is written;
otherwise the per-frame loop runs and, unless an exception stopped it,
the remaining buffered frames are flushed to the writer in order. -/
def blur_video (results_data : List (Frame × Result)) (conf_lvl : Int) : PState :=
  match results_data with
  | [] => { initSt with crashed := true }
  | _ =>
    let st := results_data.foldl (blurStep conf_lvl) initSt
    if st.crashed then st
    else { st with
      output := st.output ++ st.buffer.map (fun e => (e.1, e.2, st.act.blurred_ids)),
      buffer := [] }

end Yolo

namespace Backend

/-- BUFFER_FRAMES = 10 (backend/pipeline/blur.py line 7). -/
def BUFFER_FRAMES : Nat := 10

/-- process_frame (backend/pipeline/blur.py lines 50-72): blur exactly
the detections whose track id is in `blur_ids`; AttributeError when
`result.boxes` is None, early return when track ids are missing.  There
is no activation and no counter logic in this variant. -/
def process_frame (frame : Frame) (r : Result) (blur_ids : List Int) : Except Unit Frame :=
  match r.boxes with
  | none => .error ()
  | some (.noIds _) => .ok frame
  | some (.withIds dets) =>
      .ok (dets.foldl (fun f d => if d.track_id ∈ blur_ids then apply_blur f d.box else f) frame)

/-- The state of one run of backend blur_video; `output` keeps the ghost
Result each written frame was buffered with. -/
structure PStateC where
  buffer : List (Frame × Result)
  output : List (Frame × Result)
  crashed : Bool

/-- The write-oldest tail of the curated loop (backend blur.py lines
37-39). -/
def emitOldestC (buf : List (Frame × Result)) (output : List (Frame × Result)) : PStateC :=
  if buf.length = BUFFER_FRAMES then
    match buf with
    | [] => ⟨[], output, false⟩
    | e :: rest => ⟨rest, output ++ [e], false⟩
  else ⟨buf, output, false⟩

/-- One iteration of the `for result in results_data` loop of backend
blur_video (lines 30-39): `frame = result.orig_img.copy()` is the input
frame (pure values need no copy), buffered, processed in place, then the
oldest frame is written once the buffer is at capacity.  `update_counters`
runs on an always-empty `blur_counters` (cleared on entry, never set in
this variant) and is a no-op. -/
def blurStepC (blur_ids : List Int) (st : PStateC) (inp : Frame × Result) : PStateC :=
  if st.crashed then st
  else
    match process_frame inp.1 inp.2 blur_ids with
    | .error _ => { st with buffer := dequeAppend BUFFER_FRAMES st.buffer inp, crashed := true }
    | .ok f1 => emitOldestC (dequeAppend BUFFER_FRAMES st.buffer (f1, inp.2)) st.output

/-- blur_video (backend/pipeline/blur.py lines 9-47): `blurred_ids` is
cleared and then fixed to `set(blur_ids)` for the whole run; an empty
`results_data` raises IndexError at `results_data[0]`; at end of stream
the remaining buffered frames are flushed in order. -/
def blur_video (results_data : List (Frame × Result)) (blur_ids : List Int) : PStateC :=
  match results_data with
  | [] => ⟨[], [], true⟩
  | _ =>
    let st := results_data.foldl (blurStepC blur_ids) ⟨[], [], false⟩
    if st.crashed then st
    else { st with output := st.output ++ st.buffer, buffer := [] }

end Backend

namespace Extract

/-- One detection row as _extract_unique_tracks reads it: xyxy (cast to
integers; the code converts per-coordinate with `int(...)` only for the
crop), class id, confidence (carried by the Results object but never read
by this function) and track id. -/
structure DetE where
  box : Box
  cls : Int
  conf : Int
  track_id : Int
deriving DecidableEq

/-- A result as _extract_unique_tracks reads it: `boxes = none` models
`result.boxes is None`, the inner `none` models `result.boxes.id is
None` (both are skipped with `continue`); `names` is the class-name dict;
`orig_img` carries the (h, w) of the frame, `none` when missing. -/
structure ResultE where
  boxes : Option (Option (List DetE))
  names : List (Int × String)
  orig_img : Option (Nat × Nat)
deriving DecidableEq

/-- `result.names.get(class_id, str(class_id))`. -/
def className (names : List (Int × String)) (cls : Int) : String :=
  ((names.lookup cls).getD (toString cls))

/-- The per-track record _extract_unique_tracks builds (crop_path is
modelled by the crop rectangle actually written, `none` when no crop was
produced). -/
structure TrackRec where
  track_id : Int
  cls : String
  first_seen_frame : Nat
  first_seen_timestamp : ℚ
  bbox : Box
  crop : Option (Nat × Nat × Nat × Nat)
deriving DecidableEq

/-- The crop rectangle of extract.py lines 110-123: coordinates floored
at 0, then clamped (x1 to w-1, x2 to w, y1 to h-1, y2 to h), written only
when the region is nonempty. -/
def cropRect (img : Option (Nat × Nat)) (b : Box) : Option (Nat × Nat × Nat × Nat) :=
  match img with
  | none => none
  | some (h, w) =>
    let x1 := min (max 0 b.x1).toNat (w - 1)
    let x2 := min (max 0 b.x2).toNat w
    let y1 := min (max 0 b.y1).toNat (h - 1)
    let y2 := min (max 0 b.y2).toNat h
    if x1 < x2 ∧ y1 < y2 then some (x1, y1, x2, y2) else none

/-- The record inserted for the first occurrence of a track
(extract.py lines 101-135).  `fps` is integral here because
_get_video_fps rounds it; the stored timestamp is the exact quotient. -/
def buildRec (fps : Int) (frame_index : Nat) (r : ResultE) (d : DetE) : TrackRec :=
  { track_id := d.track_id
    cls := className r.names d.cls
    first_seen_frame := frame_index
    first_seen_timestamp :=
      if 0 < fps then (frame_index : ℚ) / (fps : ℚ) else (frame_index : ℚ) / 30
    bbox := d.box
    crop := cropRect r.orig_img d.box }

/-- The inner `for i, track_id in enumerate(ids)` loop: skip ids already
present in the dict, insert a record for new ones (dict values in
insertion order). -/
def addFrame (fps : Int) (idx : Nat) (r : ResultE) (acc : List TrackRec) : List TrackRec :=
  match r.boxes with
  | none => acc
  | some none => acc
  | some (some dets) =>
    dets.foldl
      (fun a d =>
        if a.any (fun rec => rec.track_id = d.track_id) then a else a ++ [buildRec fps idx r d])
      acc

/-- The `for frame_index, result in enumerate(results)` loop. -/
def goFrames (fps : Int) : Nat → List ResultE → List TrackRec → List TrackRec
  | _, [], acc => acc
  | i, r :: rs, acc => goFrames fps (i + 1) rs (addFrame fps i r acc)

/-- Stable insertion into a list sorted by first_seen_frame: the new
element goes before the first element with a key not smaller than its
own.  Python `sorted` is a stable sort; a stable sort is a unique
function of its input, so this insertion sort is extensionally the
Timsort the code calls. -/
def insertRec (x : TrackRec) : List TrackRec → List TrackRec
  | [] => [x]
  | y :: ys =>
    if x.first_seen_frame ≤ y.first_seen_frame then x :: y :: ys else y :: insertRec x ys

/-- `sorted(unique_by_track.values(), key=lambda x: x["first_seen_frame"])`. -/
def sortRecs : List TrackRec → List TrackRec
  | [] => []
  | x :: xs => insertRec x (sortRecs xs)

/-- _extract_unique_tracks (backend/pipeline/extract.py lines 72-138);
the leading underscore of the Python name is dropped. -/
def extract_unique_tracks (results : List ResultE) (fps : Int) : List TrackRec :=
  sortRecs (goFrames fps 0 results [])

/-- Replace every confidence in a detection stream. -/
def mapConf (g : Int → Int) (results : List ResultE) : List ResultE :=
  results.map (fun r =>
    { r with boxes := r.boxes.map (fun ob => ob.map (fun dets =>
        dets.map (fun d => { d with conf := g d.conf }))) })

/-- Modelled from the spec: "best (max) observed confidence" of a track
over all of its detections in the stream (`none` when the track never
appears with ids).  _extract_unique_tracks has no counterpart of this
value; the definition exists to compare the spec's words with the code. -/
def best_observed_confidence_spec (results : List ResultE) (t : Int) : Option Int :=
  results.foldl
    (fun m r =>
      match r.boxes with
      | some (some dets) =>
        dets.foldl
          (fun m d =>
            if d.track_id = t then
              match m with
              | none => some d.conf
              | some c => some (max c d.conf)
            else m) m
      | _ => m) none

end Extract

namespace Main

/-- The parameter list of the blur_video that backend/main.py imports
(`from pipeline.blur import blur_video`, backend/pipeline/blur.py
line 9). -/
def blur_video_params : List String := ["results_data", "output_video_path", "blur_ids"]

/-- Python call semantics for a call with `npos` positional arguments and
the given keyword names: it raises TypeError unless every keyword names a
parameter that is not already bound positionally and every parameter gets
bound (blur_video has no defaults). -/
def kwCallOk (params : List String) (npos : Nat) (kwargs : List String) : Bool :=
  kwargs.all (fun k => (params.drop npos).contains k) &&
    (params.drop npos).all (fun q => kwargs.contains q) &&
    npos ≤ params.length

/-- The call `blur_video(results_data, str(protected_path), conf_lvl=0.7)`
in create_protected_video_with_blur (backend/main.py line 408): two
positional arguments and the keyword `conf_lvl`. -/
def call_blur_video_protect : Except String Unit :=
  if kwCallOk blur_video_params 2 ["conf_lvl"] then .ok () else .error "TypeError"

/-- create_mock_protected_video (backend/main.py lines 418-442):
`shutil.copy2(original_path, protected_path)` — the "protected" file is a
byte-for-byte copy of the original upload. -/
def create_mock_protected_video (original : List Nat) : List Nat := original

/-- create_protected_video_with_blur (backend/main.py lines 385-416).
`detect_outcome` stands for the run of `detect_video` (its source is not
under pipeline/ in this tree; only its outcome matters here) and
`blurred` for the video blur_video would have produced had its call
succeeded.  Any exception in the try block falls back to the mock copy. -/
def create_protected_video_with_blur (detect_outcome : Except String Unit)
    (blurred original : List Nat) : List Nat :=
  match detect_outcome with
  | .error _ => create_mock_protected_video original
  | .ok _ =>
    match call_blur_video_protect with
    | .error _ => create_mock_protected_video original
    | .ok _ => blurred

end Main

/-- The beyond-window scenario of claim C2: BUFFER_FRAMES = 10, track 1
appears on every frame 0..13 of a 4 x 4 video with bbox (0,0,2,2); its
confidence (scale: threshold = 50) is 20 everywhere except frame 12,
where it first meets the threshold with 90. -/
def C2stream : List (Frame × Result) :=
  (List.range 14).map (fun i =>
    (⟨i, 4, 4, []⟩, ⟨some (.withIds [⟨⟨0, 0, 2, 2⟩, if i = 12 then 90 else 20, 1⟩])⟩))

/-- Claim C2 counterexample: in the frame-12 activation scenario the
frames emitted unredacted are 0, 1 AND 2, not "exactly frames 0 and 1":
frame 2 was already written on iteration 11 (the buffer pops its oldest
frame from iteration 9 on), so it leaves with an empty blur mask even
though track 1 appears in it with a nonempty region. -/
theorem C2_counterexample :
    ((Yolo.blur_video C2stream 50).output.map
        (fun o => (o.1.idx, o.1.blurred.isEmpty))).getD 2 (0, false) = (2, true) ∧
      detsOf (C2stream.getD 2 (⟨0, 0, 0, []⟩, ⟨none⟩)).2 = [⟨⟨0, 0, 2, 2⟩, 20, 1⟩] ∧
      sliceRegion 4 4 ⟨0, 0, 2, 2⟩ ≠ [] := by
  refine ⟨?_, ?_, ?_⟩ <;> decide

/-- Claim C2 (amended): in the frame-12 activation scenario the leaked
unredacted prefix is exactly frames 0-2 (writing starts on iteration 9,
so by the frame-12 activation the buffer holds exactly frames 3..12,
the window N - BUFFER_FRAMES + 1 .. N), and every frame from 3 on has track 1's
region blurred — frames 3..12 by the retroactive pass over the buffer,
frame 13 because the track stays activated.  The theorem is the exact
run: emitted masks per frame index and the `blurred_ids` snapshot at each
write. -/
theorem C2_beyond_window_amended :
    ((Yolo.blur_video C2stream 50).output.map (fun o => (o.1.idx, o.1.blurred))) =
      [(0, []), (1, []), (2, []),
       (3, [(0, 0), (0, 1), (1, 0), (1, 1)]), (4, [(0, 0), (0, 1), (1, 0), (1, 1)]),
       (5, [(0, 0), (0, 1), (1, 0), (1, 1)]), (6, [(0, 0), (0, 1), (1, 0), (1, 1)]),
       (7, [(0, 0), (0, 1), (1, 0), (1, 1)]), (8, [(0, 0), (0, 1), (1, 0), (1, 1)]),
       (9, [(0, 0), (0, 1), (1, 0), (1, 1)]), (10, [(0, 0), (0, 1), (1, 0), (1, 1)]),
       (11, [(0, 0), (0, 1), (1, 0), (1, 1)]),
       (12, [(0, 0), (0, 1), (1, 0), (1, 1), (0, 0), (0, 1), (1, 0), (1, 1)]),
       (13, [(0, 0), (0, 1), (1, 0), (1, 1)])] ∧
    ((Yolo.blur_video C2stream 50).output.map (fun o => o.2.2)) =
      [[], [], [], [1], [1], [1], [1], [1], [1], [1], [1], [1], [1], [1]] := by
  exact ⟨by decide, by decide⟩

/-- The persistence scenario of claim C3: track 1 has a single qualifying
detection (confidence 90, threshold 50) on frame 0 with bbox (0,0,2,2),
no detections at all on frames 1..11, and reappears on frame 12 with
bbox (1,1,3,3) at confidence 20, below the threshold. -/
def C3stream : List (Frame × Result) :=
  (⟨0, 4, 4, []⟩, (⟨some (.withIds [⟨⟨0, 0, 2, 2⟩, 90, 1⟩])⟩ : Result)) ::
    ((List.range 11).map (fun i =>
      ((⟨i + 1, 4, 4, []⟩ : Frame), (⟨some (.withIds [])⟩ : Result)))) ++
    [(⟨12, 4, 4, []⟩, ⟨some (.withIds [⟨⟨1, 1, 3, 3⟩, 20, 1⟩])⟩)]

/-- Claim C3 counterexample: after the single qualifying detection on
frame 0, frame 1 is emitted with an EMPTY blur mask — the code has no
last-known-bbox mechanism, so nothing is blurred on frames where the
track has no detection (the claim says the renderer blurs the last-known
bbox on each of the BUFFER_FRAMES following frames); and on frame 12,
after the counter has long reached 0, the track is STILL blurred (at
confidence 20 < 50) because activation is permanent — the claim says it
stops being blurred. -/
theorem C3_counterexample :
    ((Yolo.blur_video C3stream 50).output.map
        (fun o => (o.1.idx, o.1.blurred))).getD 1 (0, [(9, 9)]) = (1, []) ∧
      sliceRegion 4 4 ⟨0, 0, 2, 2⟩ ≠ [] ∧
      ((Yolo.blur_video C3stream 50).output.map
        (fun o => (o.1.idx, o.1.blurred))).getD 12 (0, []) =
        (12, [(1, 1), (1, 2), (2, 1), (2, 2)]) := by
  refine ⟨?_, ?_, ?_⟩ <;> decide

/-- Claim C3 (amended): after a single qualifying detection the counter
is set to BUFFER_FRAMES and decremented at the end of the same iteration,
then by one per frame down to 0 (values 9, 8, ..., 1, 0 after iterations
0..9, staying 0 afterwards); but the counter is dead state: no blurring
happens on frames 1..11 where the track has no detection (the code blurs
only current detections, there is no last-known-bbox rendering), and the
track does NOT stop being blurred — its frame-12 reappearance below the
threshold is blurred because `blurred_ids` is never cleared. -/
theorem C3_persistence_amended :
    ((Yolo.blur_video C3stream 50).output.map (fun o => (o.1.idx, o.1.blurred))) =
      [(0, [(0, 0), (0, 1), (1, 0), (1, 1), (0, 0), (0, 1), (1, 0), (1, 1)]),
       (1, []), (2, []), (3, []), (4, []), (5, []), (6, []), (7, []), (8, []),
       (9, []), (10, []), (11, []), (12, [(1, 1), (1, 2), (2, 1), (2, 2)])] ∧
    ((List.range 13).map (fun k =>
        ((C3stream.take (k + 1)).foldl (Yolo.blurStep 50) Yolo.initSt).act.blur_counters)) =
      [[(1, 9)], [(1, 8)], [(1, 7)], [(1, 6)], [(1, 5)], [(1, 4)], [(1, 3)], [(1, 2)],
       [(1, 1)], [(1, 0)], [(1, 0)], [(1, 0)], [(1, 0)]] := by
  exact ⟨by decide, by decide⟩

/-- Claim C7 counterexample: a frame whose result has NO boxes object
(`result.boxes is None`) is not tolerated: process_frame reads
`result.boxes.xyxy` before any None-check on boxes, so the call raises
(AttributeError) in both the confidence-triggered and the curated
variant, rather than being treated as "no activation signal". -/
theorem C7_counterexample :
    Yolo.process_frame ⟨0, 4, 4, []⟩ ⟨none⟩ 50 ⟨[], []⟩ = .error () ∧
      Backend.process_frame ⟨0, 4, 4, []⟩ ⟨none⟩ [3, 7] = .error () :=
  ⟨rfl, rfl⟩

/-- Claim C7 (amended): a frame whose tracker supplied no track ids
(`result.boxes.id is None`) is tolerated by both process_frame variants —
no error, no activation signal, frame and state untouched — and
retro_blur likewise skips such buffered frames, so the frame passes
through the normal buffer/emit path unredacted unless something else
already blurred it.  A missing boxes OBJECT, by contrast, raises (see the
counterexample). -/
theorem C7_missing_ids_tolerated :
    (∀ (f : Frame) (raw : List (Box × Int)) (c : Int) (act : Yolo.ActSt),
        Yolo.process_frame f ⟨some (.noIds raw)⟩ c act = .ok ⟨f, [], act⟩) ∧
      (∀ (f : Frame) (raw : List (Box × Int)) (ids : List Int),
        Backend.process_frame f ⟨some (.noIds raw)⟩ ids = .ok f) ∧
      (∀ (f : Frame) (raw : List (Box × Int)) (ids : List Int),
        Yolo.retro_blur f ⟨some (.noIds raw)⟩ ids = .ok f) :=
  ⟨fun _ _ _ _ => rfl, fun _ _ _ => rfl, fun _ _ _ => rfl⟩

/-- Claim C10: the call `blur_video(results_data, str(protected_path),
conf_lvl=0.7)` passes keyword `conf_lvl` to a blur_video whose third
parameter is named `blur_ids`, so (whenever it is reached) it raises
TypeError; every exception in the try block of
create_protected_video_with_blur — including a failing detect_video —
is caught and answered with create_mock_protected_video, which returns a
byte-for-byte copy of the original upload as the "protected" video.  No
error surfaces from the endpoint: the function always returns normally,
and always returns the unredacted original. -/
theorem C10_fail_open_fallback :
    Main.kwCallOk Main.blur_video_params 2 ["conf_lvl"] = false ∧
      Main.call_blur_video_protect = .error "TypeError" ∧
      ∀ (detect_outcome : Except String Unit) (blurred original : List Nat),
        Main.create_protected_video_with_blur detect_outcome blurred original = original := by
  refine ⟨rfl, rfl, ?_⟩
  rintro (e | u) blurred original <;> rfl

namespace Yolo

theorem detStep_h (c : Int) (s : DState) (d : Det) : (detStep c s d).frame.h = s.frame.h := by
  simp only [detStep]
  split_ifs <;> simp [apply_blur_h]

theorem detStep_w (c : Int) (s : DState) (d : Det) : (detStep c s d).frame.w = s.frame.w := by
  simp only [detStep]
  split_ifs <;> simp [apply_blur_w]

theorem detStep_idx (c : Int) (s : DState) (d : Det) : (detStep c s d).frame.idx = s.frame.idx := by
  simp only [detStep]
  split_ifs <;> simp [apply_blur_idx]

theorem detStep_mask (c : Int) (s : DState) (d : Det) {p : Pix}
    (hp : p ∈ s.frame.blurred) : p ∈ (detStep c s d).frame.blurred := by
  simp only [detStep]
  split_ifs <;> first | exact apply_blur_mono hp | exact hp

theorem detStep_ids (c : Int) (s : DState) (d : Det) {t : Int}
    (ht : t ∈ s.act.blurred_ids) : t ∈ (detStep c s d).act.blurred_ids := by
  simp only [detStep]
  split_ifs <;> simp [ht]

theorem detStep_new (c : Int) (s : DState) (d : Det) {t : Int}
    (ht : t ∈ s.new_ids) : t ∈ (detStep c s d).new_ids := by
  simp only [detStep]
  split_ifs <;> simp [ht]

theorem detStep_ids_from (c : Int) (s : DState) (d : Det) {t : Int}
    (ht : t ∈ (detStep c s d).act.blurred_ids) :
    t ∈ s.act.blurred_ids ∨ t ∈ (detStep c s d).new_ids := by
  simp only [detStep] at ht ⊢
  by_cases hA : c ≤ d.conf ∧ d.track_id ∉ s.act.blurred_ids
  · rw [if_pos hA] at ht
    rw [if_pos hA]
    simp only [List.mem_append, List.mem_singleton] at ht ⊢
    tauto
  · rw [if_neg hA] at ht
    exact Or.inl ht

theorem detStep_new_sub (c : Int) (s : DState) (d : Det)
    (hsub : ∀ t ∈ s.new_ids, t ∈ s.act.blurred_ids) :
    ∀ t ∈ (detStep c s d).new_ids, t ∈ (detStep c s d).act.blurred_ids := by
  intro t ht
  simp only [detStep] at ht ⊢
  by_cases hA : c ≤ d.conf ∧ d.track_id ∉ s.act.blurred_ids
  · rw [if_pos hA] at ht
    rw [if_pos hA]
    simp only [List.mem_append, List.mem_singleton] at ht ⊢
    rcases ht with h | h
    · exact Or.inl (hsub t h)
    · exact Or.inr h
  · rw [if_neg hA] at ht
    rw [if_neg hA]
    exact hsub t ht

theorem detStep_blur_self (c : Int) (s : DState) (d : Det)
    (hd : d.track_id ∈ s.act.blurred_ids) :
    ∀ p ∈ sliceRegion s.frame.h s.frame.w d.box, p ∈ (detStep c s d).frame.blurred := by
  intro p hp
  simp only [detStep]
  have hc : d.track_id ∈
      (if c ≤ d.conf ∧ d.track_id ∉ s.act.blurred_ids then
          ({ blurred_ids := s.act.blurred_ids ++ [d.track_id],
             blur_counters := setCounter s.act.blur_counters d.track_id BUFFER_FRAMES } : ActSt)
        else s.act).blurred_ids := by
    by_cases hA : c ≤ d.conf ∧ d.track_id ∉ s.act.blurred_ids
    · rw [if_pos hA]; simp [hd]
    · rw [if_neg hA]; exact hd
  rw [if_pos (Or.inl hc)]
  exact mem_apply_blur.mpr (Or.inr hp)

theorem detFold_h (c : Int) (dets : List Det) :
    ∀ s : DState, (dets.foldl (detStep c) s).frame.h = s.frame.h := by
  induction dets with
  | nil => intro s; rfl
  | cons d ds ih => intro s; rw [List.foldl_cons, ih, detStep_h]

theorem detFold_w (c : Int) (dets : List Det) :
    ∀ s : DState, (dets.foldl (detStep c) s).frame.w = s.frame.w := by
  induction dets with
  | nil => intro s; rfl
  | cons d ds ih => intro s; rw [List.foldl_cons, ih, detStep_w]

theorem detFold_idx (c : Int) (dets : List Det) :
    ∀ s : DState, (dets.foldl (detStep c) s).frame.idx = s.frame.idx := by
  induction dets with
  | nil => intro s; rfl
  | cons d ds ih => intro s; rw [List.foldl_cons, ih, detStep_idx]

theorem detFold_mask (c : Int) (dets : List Det) :
    ∀ (s : DState) (p : Pix), p ∈ s.frame.blurred → p ∈ (dets.foldl (detStep c) s).frame.blurred := by
  induction dets with
  | nil => intro s p hp; exact hp
  | cons d ds ih => intro s p hp; rw [List.foldl_cons]; exact ih _ p (detStep_mask c s d hp)

theorem detFold_ids (c : Int) (dets : List Det) :
    ∀ (s : DState) (t : Int), t ∈ s.act.blurred_ids → t ∈ (dets.foldl (detStep c) s).act.blurred_ids := by
  induction dets with
  | nil => intro s t ht; exact ht
  | cons d ds ih => intro s t ht; rw [List.foldl_cons]; exact ih _ t (detStep_ids c s d ht)

theorem detFold_new (c : Int) (dets : List Det) :
    ∀ (s : DState) (t : Int), t ∈ s.new_ids → t ∈ (dets.foldl (detStep c) s).new_ids := by
  induction dets with
  | nil => intro s t ht; exact ht
  | cons d ds ih => intro s t ht; rw [List.foldl_cons]; exact ih _ t (detStep_new c s d ht)

theorem detFold_new_sub (c : Int) (dets : List Det) :
    ∀ s : DState, (∀ t ∈ s.new_ids, t ∈ s.act.blurred_ids) →
    ∀ t ∈ (dets.foldl (detStep c) s).new_ids, t ∈ (dets.foldl (detStep c) s).act.blurred_ids := by
  induction dets with
  | nil => intro s hs; exact hs
  | cons d ds ih =>
    intro s hs
    rw [List.foldl_cons]
    exact ih _ (detStep_new_sub c s d hs)

theorem detFold_ids_from (c : Int) (dets : List Det) :
    ∀ (s : DState) (t : Int), t ∈ (dets.foldl (detStep c) s).act.blurred_ids →
      t ∈ s.act.blurred_ids ∨ t ∈ (dets.foldl (detStep c) s).new_ids := by
  induction dets with
  | nil => intro s t ht; exact Or.inl ht
  | cons d ds ih =>
    intro s t ht
    rw [List.foldl_cons] at ht ⊢
    rcases ih _ t ht with h | h
    · rcases detStep_ids_from c s d h with h2 | h2
      · exact Or.inl h2
      · exact Or.inr (detFold_new c ds _ t h2)
    · exact Or.inr h

theorem detFold_blur_act (c : Int) (dets : List Det) :
    ∀ (s : DState) (d0 : Det), d0 ∈ dets → d0.track_id ∈ s.act.blurred_ids →
      ∀ p ∈ sliceRegion s.frame.h s.frame.w d0.box, p ∈ (dets.foldl (detStep c) s).frame.blurred := by
  induction dets with
  | nil => intro s d0 h0; exact absurd h0 (List.not_mem_nil d0)
  | cons d ds ih =>
    intro s d0 h0 hact p hp
    rw [List.foldl_cons]
    rcases List.mem_cons.mp h0 with rfl | h0
    · exact detFold_mask c ds _ p (detStep_blur_self c s d0 hact p hp)
    · have hact2 : d0.track_id ∈ (detStep c s d).act.blurred_ids := detStep_ids c s d hact
      have hp2 : p ∈ sliceRegion (detStep c s d).frame.h (detStep c s d).frame.w d0.box := by
        rw [detStep_h, detStep_w]; exact hp
      exact ih _ d0 h0 hact2 p hp2

theorem process_frame_ok (frame : Frame) (r : Result) (c : Int) (act : ActSt)
    (hb : r.boxes ≠ none) : ∃ s, process_frame frame r c act = .ok s := by
  unfold process_frame
  match h : r.boxes with
  | none => exact absurd h hb
  | some (.noIds raw) => exact ⟨_, rfl⟩
  | some (.withIds dets) => exact ⟨_, rfl⟩

theorem process_frame_dims {frame : Frame} {r : Result} {c : Int} {act : ActSt} {s : DState}
    (h : process_frame frame r c act = .ok s) :
    s.frame.h = frame.h ∧ s.frame.w = frame.w ∧ s.frame.idx = frame.idx := by
  unfold process_frame at h
  match hb : r.boxes with
  | none => rw [hb] at h; exact absurd h (by simp)
  | some (.noIds raw) =>
    rw [hb] at h
    cases h
    exact ⟨rfl, rfl, rfl⟩
  | some (.withIds dets) =>
    rw [hb] at h
    cases h
    exact ⟨detFold_h c dets _, detFold_w c dets _, detFold_idx c dets _⟩

theorem process_frame_mask {frame : Frame} {r : Result} {c : Int} {act : ActSt} {s : DState}
    (h : process_frame frame r c act = .ok s) {p : Pix} (hp : p ∈ frame.blurred) :
    p ∈ s.frame.blurred := by
  unfold process_frame at h
  match hb : r.boxes with
  | none => rw [hb] at h; exact absurd h (by simp)
  | some (.noIds raw) => rw [hb] at h; cases h; exact hp
  | some (.withIds dets) => rw [hb] at h; cases h; exact detFold_mask c dets _ p hp

theorem process_frame_ids {frame : Frame} {r : Result} {c : Int} {act : ActSt} {s : DState}
    (h : process_frame frame r c act = .ok s) {t : Int} (ht : t ∈ act.blurred_ids) :
    t ∈ s.act.blurred_ids := by
  unfold process_frame at h
  match hb : r.boxes with
  | none => rw [hb] at h; exact absurd h (by simp)
  | some (.noIds raw) => rw [hb] at h; cases h; exact ht
  | some (.withIds dets) => rw [hb] at h; cases h; exact detFold_ids c dets _ t ht

theorem process_frame_new_sub {frame : Frame} {r : Result} {c : Int} {act : ActSt} {s : DState}
    (h : process_frame frame r c act = .ok s) :
    ∀ t ∈ s.new_ids, t ∈ s.act.blurred_ids := by
  unfold process_frame at h
  match hb : r.boxes with
  | none => rw [hb] at h; exact absurd h (by simp)
  | some (.noIds raw) => rw [hb] at h; cases h; intro t ht; exact absurd ht (List.not_mem_nil t)
  | some (.withIds dets) =>
    rw [hb] at h
    cases h
    exact detFold_new_sub c dets _ (by intro t ht; exact absurd ht (List.not_mem_nil t))

theorem process_frame_ids_from {frame : Frame} {r : Result} {c : Int} {act : ActSt} {s : DState}
    (h : process_frame frame r c act = .ok s) {t : Int} (ht : t ∈ s.act.blurred_ids) :
    t ∈ act.blurred_ids ∨ t ∈ s.new_ids := by
  unfold process_frame at h
  match hb : r.boxes with
  | none => rw [hb] at h; exact absurd h (by simp)
  | some (.noIds raw) => rw [hb] at h; cases h; exact Or.inl ht
  | some (.withIds dets) => rw [hb] at h; cases h; exact detFold_ids_from c dets _ t ht

theorem process_frame_blur_act {frame : Frame} {r : Result} {c : Int} {act : ActSt} {s : DState}
    (h : process_frame frame r c act = .ok s) :
    ∀ d ∈ detsOf r, d.track_id ∈ act.blurred_ids →
      ∀ p ∈ sliceRegion frame.h frame.w d.box, p ∈ s.frame.blurred := by
  unfold process_frame at h
  match hb : r.boxes with
  | none => rw [hb] at h; exact absurd h (by simp)
  | some (.noIds raw) =>
    rw [hb] at h; cases h
    intro d hd
    rw [detsOf, hb] at hd
    exact absurd hd (List.not_mem_nil d)
  | some (.withIds dets) =>
    rw [hb] at h
    cases h
    intro d hd hact p hp
    rw [detsOf, hb] at hd
    exact detFold_blur_act c dets _ d hd hact p hp

theorem retro_blur_ok (frame : Frame) (r : Result) (ids : List Int)
    (hb : r.boxes ≠ none) : ∃ f1, retro_blur frame r ids = .ok f1 := by
  unfold retro_blur
  match h : r.boxes with
  | none => exact absurd h hb
  | some (.noIds raw) => exact ⟨_, rfl⟩
  | some (.withIds dets) => exact ⟨_, rfl⟩

theorem retroBlurFold_dims (ids : List Int) (dets : List Det) :
    ∀ f : Frame,
      (dets.foldl (fun f d => if d.track_id ∈ ids then apply_blur f d.box else f) f).h = f.h ∧
      (dets.foldl (fun f d => if d.track_id ∈ ids then apply_blur f d.box else f) f).w = f.w ∧
      (dets.foldl (fun f d => if d.track_id ∈ ids then apply_blur f d.box else f) f).idx = f.idx := by
  induction dets with
  | nil => intro f; exact ⟨rfl, rfl, rfl⟩
  | cons d ds ih =>
    intro f
    rw [List.foldl_cons]
    refine ⟨?_, ?_, ?_⟩ <;>
      [rw [(ih _).1]; rw [(ih _).2.1]; rw [(ih _).2.2]] <;>
      split_ifs <;> simp [apply_blur_h, apply_blur_w, apply_blur_idx]

theorem retroBlurFold_mask (ids : List Int) (dets : List Det) :
    ∀ (f : Frame) (p : Pix), p ∈ f.blurred →
      p ∈ (dets.foldl (fun f d => if d.track_id ∈ ids then apply_blur f d.box else f) f).blurred := by
  induction dets with
  | nil => intro f p hp; exact hp
  | cons d ds ih =>
    intro f p hp
    rw [List.foldl_cons]
    refine ih _ p ?_
    split_ifs
    · exact apply_blur_mono hp
    · exact hp

theorem retroBlurFold_blur (ids : List Int) (dets : List Det) :
    ∀ (f : Frame) (d0 : Det), d0 ∈ dets → d0.track_id ∈ ids →
      ∀ p ∈ sliceRegion f.h f.w d0.box,
        p ∈ (dets.foldl (fun f d => if d.track_id ∈ ids then apply_blur f d.box else f) f).blurred := by
  induction dets with
  | nil => intro f d0 h0; exact absurd h0 (List.not_mem_nil d0)
  | cons d ds ih =>
    intro f d0 h0 hact p hp
    rw [List.foldl_cons]
    rcases List.mem_cons.mp h0 with rfl | h0
    · refine retroBlurFold_mask ids ds _ p ?_
      rw [if_pos hact]
      exact mem_apply_blur.mpr (Or.inr hp)
    · refine ih _ d0 h0 hact p ?_
      split_ifs
      · rw [apply_blur_h, apply_blur_w]; exact hp
      · exact hp

theorem retro_blur_dims {frame : Frame} {r : Result} {ids : List Int} {f1 : Frame}
    (h : retro_blur frame r ids = .ok f1) :
    f1.h = frame.h ∧ f1.w = frame.w ∧ f1.idx = frame.idx := by
  unfold retro_blur at h
  match hb : r.boxes with
  | none => rw [hb] at h; exact absurd h (by simp)
  | some (.noIds raw) => rw [hb] at h; cases h; exact ⟨rfl, rfl, rfl⟩
  | some (.withIds dets) => rw [hb] at h; cases h; exact retroBlurFold_dims ids dets frame

theorem retro_blur_mask {frame : Frame} {r : Result} {ids : List Int} {f1 : Frame}
    (h : retro_blur frame r ids = .ok f1) {p : Pix} (hp : p ∈ frame.blurred) :
    p ∈ f1.blurred := by
  unfold retro_blur at h
  match hb : r.boxes with
  | none => rw [hb] at h; exact absurd h (by simp)
  | some (.noIds raw) => rw [hb] at h; cases h; exact hp
  | some (.withIds dets) => rw [hb] at h; cases h; exact retroBlurFold_mask ids dets frame p hp

theorem retro_blur_blur {frame : Frame} {r : Result} {ids : List Int} {f1 : Frame}
    (h : retro_blur frame r ids = .ok f1) :
    ∀ d ∈ detsOf r, d.track_id ∈ ids →
      ∀ p ∈ sliceRegion frame.h frame.w d.box, p ∈ f1.blurred := by
  unfold retro_blur at h
  match hb : r.boxes with
  | none => rw [hb] at h; exact absurd h (by simp)
  | some (.noIds raw) =>
    rw [hb] at h; cases h
    intro d hd
    rw [detsOf, hb] at hd
    exact absurd hd (List.not_mem_nil d)
  | some (.withIds dets) =>
    rw [hb] at h
    cases h
    intro d hd hact p hp
    rw [detsOf, hb] at hd
    exact retroBlurFold_blur ids dets frame d hd hact p hp

/-- A buffered (frame, result) entry is "good" for a set of track ids
when every detection of such a track in its result has its whole
slice-addressed region blurred in the frame. -/
def entryGood (P : Int → Prop) (e : Frame × Result) : Prop :=
  ∀ d ∈ detsOf e.2, P d.track_id → ∀ p ∈ sliceRegion e.1.h e.1.w d.box, p ∈ e.1.blurred

theorem entryGood_mono {P Q : Int → Prop} {e : Frame × Result}
    (hPQ : ∀ t, Q t → P t) (h : entryGood P e) : entryGood Q e :=
  fun d hd hq => h d hd (hPQ _ hq)

theorem entryGood_or {P Q R : Int → Prop} {e : Frame × Result}
    (hP : entryGood P e) (hQ : entryGood Q e) (hR : ∀ t, R t → P t ∨ Q t) :
    entryGood R e := by
  intro d hd hr p hp
  rcases hR _ hr with h | h
  · exact hP d hd h p hp
  · exact hQ d hd h p hp

theorem retro_entryGood {f f1 : Frame} {r : Result} {ids : List Int} {P : Int → Prop}
    (h : retro_blur f r ids = .ok f1) (hg : entryGood P (f, r)) : entryGood P (f1, r) := by
  intro d hd hPd p hp
  obtain ⟨hh, hw, _⟩ := retro_blur_dims h
  rw [hh, hw] at hp
  exact retro_blur_mask h (hg d hd hPd p hp)

theorem retro_entryGood_new {f f1 : Frame} {r : Result} {ids : List Int}
    (h : retro_blur f r ids = .ok f1) : entryGood (fun t => t ∈ ids) (f1, r) := by
  intro d hd hPd p hp
  obtain ⟨hh, hw, _⟩ := retro_blur_dims h
  rw [hh, hw] at hp
  exact retro_blur_blur h d hd hPd p hp

theorem retroFoldGo_no_error (ids : List Int) :
    ∀ l : List (Frame × Result), (∀ e ∈ l, e.2.boxes ≠ none) → (retroFoldGo ids l).2 = false := by
  intro l
  induction l with
  | nil => intro _; rfl
  | cons e rest ih =>
    intro hb
    obtain ⟨f, r⟩ := e
    obtain ⟨f1, hf1⟩ := retro_blur_ok f r ids (hb (f, r) (List.mem_cons_self _ _))
    rcases hrec : retroFoldGo ids rest with ⟨rest1, cflag⟩
    simp only [retroFoldGo, hf1, hrec]
    have := ih (fun e he => hb e (List.mem_cons_of_mem _ he))
    rw [hrec] at this
    exact this

theorem retroFoldGo_good (ids : List Int) (P : Int → Prop) :
    ∀ (l l' : List (Frame × Result)), retroFoldGo ids l = (l', false) →
      (∀ e ∈ l, entryGood P e) → ∀ e ∈ l', entryGood P e := by
  intro l
  induction l with
  | nil =>
    intro l' h
    simp only [retroFoldGo] at h
    cases h
    intro _ e he
    exact absurd he (List.not_mem_nil e)
  | cons e0 rest ih =>
    intro l' h hgood
    obtain ⟨f, r⟩ := e0
    cases hf1 : retro_blur f r ids with
    | error u => simp only [retroFoldGo, hf1] at h; cases h
    | ok f1 =>
      rcases hrec : retroFoldGo ids rest with ⟨rest1, cflag⟩
      simp only [retroFoldGo, hf1, hrec] at h
      cases h
      intro e he
      rcases List.mem_cons.mp he with rfl | he
      · exact retro_entryGood hf1 (hgood (f, r) (List.mem_cons_self _ _))
      · exact ih rest1 hrec (fun e2 he2 => hgood e2 (List.mem_cons_of_mem _ he2)) e he

theorem retroFoldGo_new (ids : List Int) :
    ∀ (l l' : List (Frame × Result)), retroFoldGo ids l = (l', false) →
      ∀ e ∈ l', entryGood (fun t => t ∈ ids) e := by
  intro l
  induction l with
  | nil =>
    intro l' h
    simp only [retroFoldGo] at h
    cases h
    intro e he
    exact absurd he (List.not_mem_nil e)
  | cons e0 rest ih =>
    intro l' h
    obtain ⟨f, r⟩ := e0
    cases hf1 : retro_blur f r ids with
    | error u => simp only [retroFoldGo, hf1] at h; cases h
    | ok f1 =>
      rcases hrec : retroFoldGo ids rest with ⟨rest1, cflag⟩
      simp only [retroFoldGo, hf1, hrec] at h
      cases h
      intro e he
      rcases List.mem_cons.mp he with rfl | he
      · exact retro_entryGood_new hf1
      · exact ih rest1 hrec e he

theorem retroFoldGo_idx (ids : List Int) :
    ∀ l : List (Frame × Result),
      (retroFoldGo ids l).1.map (fun e => e.1.idx) = l.map (fun e => e.1.idx) := by
  intro l
  induction l with
  | nil => rfl
  | cons e0 rest ih =>
    obtain ⟨f, r⟩ := e0
    cases hf1 : retro_blur f r ids with
    | error u => simp only [retroFoldGo, hf1]
    | ok f1 =>
      rcases hrec : retroFoldGo ids rest with ⟨rest1, cflag⟩
      simp only [retroFoldGo, hf1, hrec]
      rw [hrec] at ih
      simp only [List.map_cons] at ih ⊢
      rw [(retro_blur_dims hf1).2.2]
      rw [ih]

theorem retroFoldGo_snd (ids : List Int) :
    ∀ l : List (Frame × Result), (retroFoldGo ids l).1.map Prod.snd = l.map Prod.snd := by
  intro l
  induction l with
  | nil => rfl
  | cons e0 rest ih =>
    obtain ⟨f, r⟩ := e0
    cases hf1 : retro_blur f r ids with
    | error u => simp only [retroFoldGo, hf1]
    | ok f1 =>
      rcases hrec : retroFoldGo ids rest with ⟨rest1, cflag⟩
      simp only [retroFoldGo, hf1, hrec]
      rw [hrec] at ih
      simp only [List.map_cons] at ih ⊢
      rw [ih]

theorem retroFoldGo_length (ids : List Int) (l : List (Frame × Result)) :
    (retroFoldGo ids l).1.length = l.length := by
  have := retroFoldGo_idx ids l
  have h2 := congrArg List.length this
  simpa using h2

theorem update_counters_ids (a : ActSt) : (update_counters a).blurred_ids = a.blurred_ids := rfl

theorem mem_dequeAppend {α : Type} {cap : Nat} {b : List α} {x e : α}
    (h : e ∈ dequeAppend cap b x) : e ∈ b ∨ e = x := by
  unfold dequeAppend at h
  split_ifs at h <;> rcases List.mem_append.mp h with h2 | h2
  · exact Or.inl (List.mem_of_mem_drop h2)
  · exact Or.inr (List.mem_singleton.mp h2)
  · exact Or.inl h2
  · exact Or.inr (List.mem_singleton.mp h2)

/-- The leak-proof invariant: while not crashed, every buffered entry is
blurred for every currently activated track; and every written frame is
blurred for every track that was activated at the moment it was written
(its ghost snapshot). -/
def INV1 (st : PState) : Prop :=
  (st.crashed = false → ∀ e ∈ st.buffer, entryGood (fun t => t ∈ st.act.blurred_ids) e) ∧
  (∀ o ∈ st.output, entryGood (fun t => t ∈ o.2.2) (o.1, o.2.1))

theorem emitOldest_INV1 {act2 : ActSt} {buf : List (Frame × Result)}
    {output : List (Frame × Result × List Int)}
    (hbuf : ∀ e ∈ buf, entryGood (fun t => t ∈ act2.blurred_ids) e)
    (hout : ∀ o ∈ output, entryGood (fun t => t ∈ o.2.2) (o.1, o.2.1)) :
    INV1 (emitOldest act2 buf output) := by
  unfold emitOldest
  split_ifs with hlen
  · cases buf with
    | nil =>
      refine ⟨fun _ e he => absurd he (List.not_mem_nil e), hout⟩
    | cons e0 rest =>
      refine ⟨fun _ e he => hbuf e (List.mem_cons_of_mem _ he), ?_⟩
      intro o ho
      rcases List.mem_append.mp ho with ho | ho
      · exact hout o ho
      · rw [List.mem_singleton] at ho
        subst ho
        exact hbuf e0 (List.mem_cons_self _ _)
  · exact ⟨fun _ e he => hbuf e he, hout⟩

theorem blurStep_INV1 (c : Int) (st : PState) (inp : Frame × Result)
    (h : INV1 st) : INV1 (blurStep c st inp) := by
  obtain ⟨hbuf, hout⟩ := h
  cases hcr : st.crashed with
  | true =>
    simp only [blurStep, hcr, if_true]
    exact ⟨hbuf, hout⟩
  | false =>
    simp only [blurStep, hcr, Bool.false_eq_true, if_false]
    cases hpf : process_frame inp.1 inp.2 c st.act with
    | error u =>
      refine ⟨?_, hout⟩
      intro hcr2
      simp at hcr2
    | ok s =>
      have hids_from : ∀ t ∈ s.act.blurred_ids, t ∈ st.act.blurred_ids ∨ t ∈ s.new_ids :=
        fun t ht => process_frame_ids_from hpf ht
      have hnewEntry : entryGood (fun t => t ∈ st.act.blurred_ids) (s.frame, inp.2) := by
        intro d hd hact p hp
        obtain ⟨hh, hw, _⟩ := process_frame_dims hpf
        rw [hh, hw] at hp
        exact process_frame_blur_act hpf d hd hact p hp
      have hbuf1 : ∀ e ∈ dequeAppend BUFFER_FRAMES st.buffer (s.frame, inp.2),
          entryGood (fun t => t ∈ st.act.blurred_ids) e := by
        intro e he
        rcases mem_dequeAppend he with he | rfl
        · exact hbuf hcr e he
        · exact hnewEntry
      cases hne : s.new_ids.isEmpty with
      | true =>
        have hnil : s.new_ids = [] := List.isEmpty_iff.mp hne
        simp only [hne, if_true]
        refine emitOldest_INV1 ?_ hout
        intro e he
        refine entryGood_mono ?_ (hbuf1 e he)
        intro t ht
        rw [update_counters_ids] at ht
        rcases hids_from t ht with h2 | h2
        · exact h2
        · rw [hnil] at h2
          exact absurd h2 (List.not_mem_nil t)
      | false =>
        simp only [hne, Bool.false_eq_true, if_false]
        rcases hrf : retroFoldGo s.new_ids (dequeAppend BUFFER_FRAMES st.buffer (s.frame, inp.2))
          with ⟨buf2, flag⟩
        cases flag with
        | true =>
          simp only [hrf, if_true]
          refine ⟨?_, hout⟩
          intro hcr2
          simp at hcr2
        | false =>
          simp only [hrf, Bool.false_eq_true, if_false]
          refine emitOldest_INV1 ?_ hout
          intro e he
          have g1 := retroFoldGo_good s.new_ids (fun t => t ∈ st.act.blurred_ids) _ buf2 hrf hbuf1 e he
          have g2 := retroFoldGo_new s.new_ids _ buf2 hrf e he
          refine entryGood_or g1 g2 ?_
          intro t ht
          rw [update_counters_ids] at ht
          exact hids_from t ht

theorem run_INV1 (c : Int) :
    ∀ (l : List (Frame × Result)) (st0 : PState), INV1 st0 → INV1 (l.foldl (blurStep c) st0) := by
  intro l
  induction l with
  | nil => intro st0 h; exact h
  | cons e rest ih =>
    intro st0 h
    rw [List.foldl_cons]
    exact ih _ (blurStep_INV1 c st0 e h)

/-- Every frame blur_video hands to the writer is blurred on the whole
slice region of every detection of every track that was in `blurred_ids`
when the frame was written. -/
theorem blur_video_output_good (stream : List (Frame × Result)) (c : Int) :
    ∀ o ∈ (blur_video stream c).output, entryGood (fun t => t ∈ o.2.2) (o.1, o.2.1) := by
  cases stream with
  | nil =>
    intro o ho
    exact absurd ho (List.not_mem_nil o)
  | cons e0 rest =>
    have hinv := run_INV1 c (e0 :: rest) initSt
      ⟨fun _ e he => absurd he (List.not_mem_nil e), fun o ho => absurd ho (List.not_mem_nil o)⟩
    simp only [blur_video]
    cases hcr : ((e0 :: rest).foldl (blurStep c) initSt).crashed with
    | true =>
      simp only [hcr, if_true]
      exact hinv.2
    | false =>
      simp only [hcr, Bool.false_eq_true, if_false]
      intro o ho
      simp only [List.mem_append] at ho
      rcases ho with ho | ho
      · exact hinv.2 o ho
      · rw [List.mem_map] at ho
        obtain ⟨e, he, rfl⟩ := ho
        exact hinv.1 hcr e he

end Yolo

theorem mem_clampRegion_iff_sliceRegion {h w : Nat} {b : Box} (hb : nonnegBox b) {p : Pix} :
    p ∈ clampRegion h w b ↔ p ∈ sliceRegion h w b := by
  obtain ⟨h1, h2, h3, h4⟩ := hb
  rw [mem_clampRegion, mem_sliceRegion,
    sliceIdx_eq_clampIdx_of_nonneg h1, sliceIdx_eq_clampIdx_of_nonneg h2,
    sliceIdx_eq_clampIdx_of_nonneg h3, sliceIdx_eq_clampIdx_of_nonneg h4]

namespace Backend

theorem blurFold_mem (ids : List Int) (dets : List Det) :
    ∀ (f : Frame) (p : Pix),
      p ∈ (dets.foldl (fun f d => if d.track_id ∈ ids then apply_blur f d.box else f) f).blurred ↔
        p ∈ f.blurred ∨ ∃ d ∈ dets, d.track_id ∈ ids ∧ p ∈ sliceRegion f.h f.w d.box := by
  induction dets with
  | nil => intro f p; simp
  | cons d ds ih =>
    intro f p
    rw [List.foldl_cons]
    by_cases hd : d.track_id ∈ ids
    · rw [if_pos hd, ih]
      simp only [apply_blur_h, apply_blur_w, mem_apply_blur]
      constructor
      · rintro ((hp | hp) | ⟨d0, hd0, hid0, hp⟩)
        · exact Or.inl hp
        · exact Or.inr ⟨d, List.mem_cons_self _ _, hd, hp⟩
        · exact Or.inr ⟨d0, List.mem_cons_of_mem _ hd0, hid0, hp⟩
      · rintro (hp | ⟨d0, hd0, hid0, hp⟩)
        · exact Or.inl (Or.inl hp)
        · rcases List.mem_cons.mp hd0 with rfl | hd0
          · exact Or.inl (Or.inr hp)
          · exact Or.inr ⟨d0, hd0, hid0, hp⟩
    · rw [if_neg hd, ih]
      constructor
      · rintro (hp | ⟨d0, hd0, hid0, hp⟩)
        · exact Or.inl hp
        · exact Or.inr ⟨d0, List.mem_cons_of_mem _ hd0, hid0, hp⟩
      · rintro (hp | ⟨d0, hd0, hid0, hp⟩)
        · exact Or.inl hp
        · rcases List.mem_cons.mp hd0 with rfl | hd0
          · exact absurd hid0 hd
          · exact Or.inr ⟨d0, hd0, hid0, hp⟩

theorem processC_ok (f : Frame) (r : Result) (ids : List Int) (hb : r.boxes ≠ none) :
    ∃ f1, process_frame f r ids = .ok f1 := by
  unfold process_frame
  match h : r.boxes with
  | none => exact absurd h hb
  | some (.noIds raw) => exact ⟨_, rfl⟩
  | some (.withIds dets) => exact ⟨_, rfl⟩

theorem processC_spec {f : Frame} {r : Result} {ids : List Int} {f1 : Frame}
    (h : process_frame f r ids = .ok f1) :
    f1.h = f.h ∧ f1.w = f.w ∧ f1.idx = f.idx ∧
      ∀ p : Pix, p ∈ f1.blurred ↔
        p ∈ f.blurred ∨ ∃ d ∈ detsOf r, d.track_id ∈ ids ∧ p ∈ sliceRegion f.h f.w d.box := by
  unfold process_frame at h
  match hb : r.boxes with
  | none => rw [hb] at h; exact absurd h (by simp)
  | some (.noIds raw) =>
    rw [hb] at h
    cases h
    refine ⟨rfl, rfl, rfl, ?_⟩
    intro p
    rw [detsOf, hb]
    simp
  | some (.withIds dets) =>
    rw [hb] at h
    cases h
    obtain ⟨dh, dw, di⟩ := Yolo.retroBlurFold_dims ids dets f
    refine ⟨dh, dw, di, ?_⟩
    intro p
    rw [detsOf, hb]
    exact blurFold_mem ids dets f p

/-- An invariant over the curated pipeline state: a per-entry property of
the not-crashed buffer and of everything already written. -/
def INVC (P : Frame × Result → Prop) (st : PStateC) : Prop :=
  (st.crashed = false → ∀ e ∈ st.buffer, P e) ∧ (∀ e ∈ st.output, P e)

theorem emitOldestC_INVC {P : Frame × Result → Prop} {buf : List (Frame × Result)}
    {output : List (Frame × Result)} (hbuf : ∀ e ∈ buf, P e) (hout : ∀ e ∈ output, P e) :
    INVC P (emitOldestC buf output) := by
  unfold emitOldestC
  split_ifs with hlen
  · cases buf with
    | nil => exact ⟨fun _ e he => absurd he (List.not_mem_nil e), hout⟩
    | cons e0 rest =>
      refine ⟨fun _ e he => hbuf e (List.mem_cons_of_mem _ he), ?_⟩
      intro e he
      rcases List.mem_append.mp he with he | he
      · exact hout e he
      · rw [List.mem_singleton] at he
        rw [he]
        exact hbuf e0 (List.mem_cons_self _ _)
  · exact ⟨fun _ e he => hbuf e he, hout⟩

theorem blurStepC_INVC {P : Frame × Result → Prop} (ids : List Int) (st : PStateC)
    (inp : Frame × Result)
    (hP : ∀ f1, process_frame inp.1 inp.2 ids = .ok f1 → P (f1, inp.2))
    (h : INVC P st) : INVC P (blurStepC ids st inp) := by
  obtain ⟨hbuf, hout⟩ := h
  cases hcr : st.crashed with
  | true =>
    simp only [blurStepC, hcr, if_true]
    exact ⟨hbuf, hout⟩
  | false =>
    simp only [blurStepC, hcr, Bool.false_eq_true, if_false]
    cases hpf : process_frame inp.1 inp.2 ids with
    | error u =>
      refine ⟨?_, hout⟩
      intro hcr2
      simp at hcr2
    | ok f1 =>
      refine emitOldestC_INVC ?_ hout
      intro e he
      rcases Yolo.mem_dequeAppend he with he | rfl
      · exact hbuf hcr e he
      · exact hP f1 hpf

theorem runC_INVC {P : Frame × Result → Prop} (ids : List Int) :
    ∀ (l : List (Frame × Result)) (st0 : PStateC),
      (∀ inp ∈ l, ∀ f1, process_frame inp.1 inp.2 ids = .ok f1 → P (f1, inp.2)) →
      INVC P st0 → INVC P (l.foldl (blurStepC ids) st0) := by
  intro l
  induction l with
  | nil => intro st0 _ h; exact h
  | cons e rest ih =>
    intro st0 hl h
    rw [List.foldl_cons]
    refine ih _ (fun inp hinp => hl inp (List.mem_cons_of_mem _ hinp)) ?_
    exact blurStepC_INVC ids st0 e (hl e (List.mem_cons_self _ _)) h

theorem blur_videoC_all {P : Frame × Result → Prop} (stream : List (Frame × Result))
    (ids : List Int)
    (hstream : ∀ inp ∈ stream, ∀ f1, process_frame inp.1 inp.2 ids = .ok f1 → P (f1, inp.2)) :
    ∀ e ∈ (blur_video stream ids).output, P e := by
  cases stream with
  | nil =>
    intro e he
    exact absurd he (List.not_mem_nil e)
  | cons e0 rest =>
    have hinv := runC_INVC ids (e0 :: rest) ⟨[], [], false⟩ hstream
      ⟨fun _ e he => absurd he (List.not_mem_nil e), fun e he => absurd he (List.not_mem_nil e)⟩
    simp only [blur_video]
    cases hcr : ((e0 :: rest).foldl (blurStepC ids) ⟨[], [], false⟩).crashed with
    | true =>
      simp only [hcr, if_true]
      exact hinv.2
    | false =>
      simp only [hcr, Bool.false_eq_true, if_false]
      intro e he
      simp only [List.mem_append] at he
      rcases he with he | he
      · exact hinv.2 e he
      · exact hinv.1 hcr e he

end Backend

/-- Claim C6: with the fixed id set {3, 7}, for every input stream (of
pristine, unblurred frames) every frame the curated blur_video emits has
exactly the union of the slice regions of its detections with track id 3
or 7 as its blurred pixels: both of those tracks are blurred in every
frame where they appear, regardless of confidence, and no pixel outside
their detections' regions — in particular no region of any other
track — is ever blurred. -/
theorem C6_curated_exact (stream : List (Frame × Result))
    (hstream : ∀ inp ∈ stream, inp.1.blurred = []) :
    ∀ e ∈ (Backend.blur_video stream [3, 7]).output,
      ∀ p : Pix, p ∈ e.1.blurred ↔
        ∃ d ∈ detsOf e.2, d.track_id ∈ ([3, 7] : List Int) ∧
          p ∈ sliceRegion e.1.h e.1.w d.box := by
  have hstep : ∀ inp ∈ stream, ∀ f1, Backend.process_frame inp.1 inp.2 [3, 7] = .ok f1 →
      (fun e : Frame × Result => ∀ p : Pix, p ∈ e.1.blurred ↔
        ∃ d ∈ detsOf e.2, d.track_id ∈ ([3, 7] : List Int) ∧
          p ∈ sliceRegion e.1.h e.1.w d.box) (f1, inp.2) := by
    intro inp hinp f1 hpf p
    obtain ⟨dh, dw, _, hmem⟩ := Backend.processC_spec hpf
    show p ∈ f1.blurred ↔
      ∃ d ∈ detsOf inp.2, d.track_id ∈ ([3, 7] : List Int) ∧ p ∈ sliceRegion f1.h f1.w d.box
    rw [dh, dw, hmem p, hstream inp hinp]
    simp
  exact @Backend.blur_videoC_all (fun e : Frame × Result => ∀ p : Pix, p ∈ e.1.blurred ↔
    ∃ d ∈ detsOf e.2, d.track_id ∈ ([3, 7] : List Int) ∧
      p ∈ sliceRegion e.1.h e.1.w d.box) stream [3, 7] hstep

/-- A one-frame curated stream: track 3 (in the fixed set) and track 5
(not in it) both appear. -/
def C6stream : List (Frame × Result) :=
  [(⟨0, 4, 4, []⟩, ⟨some (.withIds [⟨⟨0, 0, 2, 2⟩, 90, 3⟩, ⟨⟨2, 2, 4, 4⟩, 95, 5⟩])⟩)]

/-- The single frame the curated run of C6stream emits. -/
def C6entry : Frame × Result :=
  (Backend.blur_video C6stream [3, 7]).output.getD 0 (⟨0, 0, 0, []⟩, ⟨none⟩)

/-- Claim C6 witness: the exact-mask description instantiated on the
concrete one-frame stream at pixel (0, 0) (inside track 3's box, outside
track 5's). -/
theorem C6_witness :
    (∀ inp ∈ C6stream, inp.1.blurred = []) ∧
      C6entry ∈ (Backend.blur_video C6stream [3, 7]).output ∧
      (((0, 0) : Pix) ∈ C6entry.1.blurred ↔
        ∃ d ∈ detsOf C6entry.2, d.track_id ∈ ([3, 7] : List Int) ∧
          ((0, 0) : Pix) ∈ sliceRegion C6entry.1.h C6entry.1.w d.box) :=
  ⟨by decide, by decide, C6_curated_exact C6stream (by decide) C6entry (by decide) (0, 0)⟩

/-- Claim C1 (amended): the leak-proof invariant, for either policy, for
the regions the code actually addresses.  Confidence-triggered pipeline:
every frame blur_video writes out is blurred on the whole region of every
detection of every track in `blurred_ids` at the moment the frame leaves
the buffer (= every track activated at or before the frame's departure,
since `blurred_ids` only grows) — frames resident in the buffer at
activation are covered by the retroactive pass, later frames by the
activated-set check.  Curated pipeline: every emitted frame is blurred on
every detection of every id in the fixed set.  For bounding boxes with
nonnegative coordinates the blurred region equals the clamped bbox of the
spec; boxes with negative coordinates can leak (see the counterexample),
which is the only amendment. -/
theorem C1_leak_proof :
    (∀ (stream : List (Frame × Result)) (c : Int),
        ∀ o ∈ (Yolo.blur_video stream c).output, ∀ d ∈ detsOf o.2.1,
          d.track_id ∈ o.2.2 → nonnegBox d.box →
          ∀ p ∈ clampRegion o.1.h o.1.w d.box, p ∈ o.1.blurred) ∧
      (∀ (stream : List (Frame × Result)) (blur_ids : List Int),
        ∀ e ∈ (Backend.blur_video stream blur_ids).output, ∀ d ∈ detsOf e.2,
          d.track_id ∈ blur_ids → nonnegBox d.box →
          ∀ p ∈ clampRegion e.1.h e.1.w d.box, p ∈ e.1.blurred) := by
  constructor
  · intro stream c o ho d hd hact hb p hp
    rw [mem_clampRegion_iff_sliceRegion hb] at hp
    exact Yolo.blur_video_output_good stream c o ho d hd hact p hp
  · intro stream ids e he d hd hact hb p hp
    rw [mem_clampRegion_iff_sliceRegion hb] at hp
    have hstep : ∀ inp ∈ stream, ∀ f1, Backend.process_frame inp.1 inp.2 ids = .ok f1 →
        (fun e : Frame × Result => Yolo.entryGood (fun t => t ∈ ids) e) (f1, inp.2) := by
      intro inp hinp f1 hpf d0 hd0 hid0 p0 hp0
      obtain ⟨dh, dw, _, hmem⟩ := Backend.processC_spec hpf
      show p0 ∈ f1.blurred
      have hp1 : p0 ∈ sliceRegion inp.1.h inp.1.w d0.box := by
        rw [← dh, ← dw]
        exact hp0
      exact (hmem p0).mpr (Or.inr ⟨d0, hd0, hid0, hp1⟩)
    exact @Backend.blur_videoC_all
      (fun e : Frame × Result => Yolo.entryGood (fun t => t ∈ ids) e)
      stream ids hstep e he d hd hact p hp

/-- A one-frame confidence-mode stream whose single detection has a
negative x1: the box hangs off the left edge of the 4 x 4 frame. -/
def C1negStream : List (Frame × Result) :=
  [(⟨0, 4, 4, []⟩, ⟨some (.withIds [⟨⟨-1, 0, 2, 2⟩, 90, 1⟩])⟩)]

/-- Claim C1 counterexample (as stated, with the bbox read as the spec's
clamped bbox): track 1 activates on frame 0 with box (-1, 0, 2, 2), whose
clamped bbox [0,2) x [0,2) is nonempty and contains pixel (0, 0); but
Python slicing turns x1 = -1 into column 3 (> x2 = 2), so
`frame[0:2, -1:2]` is empty and apply_blur marks nothing.  The frame is
emitted with an empty blur mask while track 1 is activated — an
unblurred pixel inside an activated track's (clamped) bbox reaches the
sink. -/
theorem C1_counterexample :
    ((Yolo.blur_video C1negStream 50).output.map (fun o => (o.1.blurred, o.2.2))) =
        [([], [1])] ∧
      ((0, 0) : Pix) ∈ clampRegion 4 4 ⟨-1, 0, 2, 2⟩ ∧
      detsOf (C1negStream.getD 0 (⟨0, 0, 0, []⟩, ⟨none⟩)).2 = [⟨⟨-1, 0, 2, 2⟩, 90, 1⟩] := by
  refine ⟨?_, ?_, ?_⟩ <;> decide

/-- A one-frame confidence-mode stream: track 1 activates immediately
with an in-bounds box. -/
def C1stream : List (Frame × Result) :=
  [(⟨0, 4, 4, []⟩, ⟨some (.withIds [⟨⟨0, 0, 2, 2⟩, 90, 1⟩])⟩)]

/-- The single annotated frame the confidence run of C1stream emits. -/
def C1entry : Frame × Result × List Int :=
  (Yolo.blur_video C1stream 50).output.getD 0 (⟨0, 0, 0, []⟩, ⟨none⟩, [])

/-- Claim C1 witness: both conjuncts applied at concrete one-frame
streams, with every hypothesis discharged by evaluation. -/
theorem C1_witness :
    (C1entry ∈ (Yolo.blur_video C1stream 50).output ∧
        ((0, 0) : Pix) ∈ C1entry.1.blurred) ∧
      (C6entry ∈ (Backend.blur_video C6stream [3, 7]).output ∧
        ((0, 0) : Pix) ∈ C6entry.1.blurred) :=
  ⟨⟨by decide,
      C1_leak_proof.1 C1stream 50 C1entry (by decide) ⟨⟨0, 0, 2, 2⟩, 90, 1⟩ (by decide)
        (by decide) (by decide) (0, 0) (by decide)⟩,
    ⟨by decide,
      C1_leak_proof.2 C6stream [3, 7] C6entry (by decide) ⟨⟨0, 0, 2, 2⟩, 90, 3⟩ (by decide)
        (by decide) (by decide) (0, 0) (by decide)⟩⟩

namespace Yolo

theorem dequeAppend_length_le {α : Type} {cap : Nat} (hcap : 0 < cap) (b : List α) (x : α)
    (h : b.length ≤ cap) : (dequeAppend cap b x).length ≤ cap := by
  unfold dequeAppend
  split_ifs with he
  · simp [List.length_append, List.length_drop]
    omega
  · simp [List.length_append]
    omega

theorem dequeAppend_of_lt {α : Type} {cap : Nat} {b : List α} (x : α)
    (h : b.length < cap) : dequeAppend cap b x = b ++ [x] := by
  unfold dequeAppend
  rw [if_neg (by omega)]

theorem emitOldest_buffer_le (act2 : ActSt) (buf : List (Frame × Result))
    (output : List (Frame × Result × List Int)) :
    (emitOldest act2 buf output).buffer.length ≤ buf.length := by
  unfold emitOldest
  split_ifs with hlen
  · cases buf with
    | nil => simp
    | cons e rest => simp
  · simp

theorem blurStep_cap (c : Int) (st : PState) (inp : Frame × Result)
    (h : st.buffer.length ≤ BUFFER_FRAMES) :
    (blurStep c st inp).buffer.length ≤ BUFFER_FRAMES := by
  have hcap : 0 < BUFFER_FRAMES := by decide
  cases hcr : st.crashed with
  | true => simp only [blurStep, hcr, if_true]; exact h
  | false =>
    simp only [blurStep, hcr, Bool.false_eq_true, if_false]
    cases hpf : process_frame inp.1 inp.2 c st.act with
    | error u =>
      exact dequeAppend_length_le hcap st.buffer inp h
    | ok s =>
      have hb1 := dequeAppend_length_le hcap st.buffer (s.frame, inp.2) h
      cases hne : s.new_ids.isEmpty with
      | true =>
        simp only [hne, if_true]
        exact le_trans (emitOldest_buffer_le _ _ _) hb1
      | false =>
        simp only [hne, Bool.false_eq_true, if_false]
        rcases hrf : retroFoldGo s.new_ids (dequeAppend BUFFER_FRAMES st.buffer (s.frame, inp.2))
          with ⟨buf2, flag⟩
        have hlen2 : buf2.length = (dequeAppend BUFFER_FRAMES st.buffer (s.frame, inp.2)).length := by
          have := retroFoldGo_length s.new_ids (dequeAppend BUFFER_FRAMES st.buffer (s.frame, inp.2))
          rw [hrf] at this
          exact this
        cases flag with
        | true =>
          simp only [hrf, if_true]
          omega
        | false =>
          simp only [hrf, Bool.false_eq_true, if_false]
          have := emitOldest_buffer_le (update_counters s.act) buf2 st.output
          omega

theorem run_cap (c : Int) :
    ∀ (l : List (Frame × Result)) (st0 : PState), st0.buffer.length ≤ BUFFER_FRAMES →
      (l.foldl (blurStep c) st0).buffer.length ≤ BUFFER_FRAMES := by
  intro l
  induction l with
  | nil => intro st0 h; exact h
  | cons e rest ih =>
    intro st0 h
    rw [List.foldl_cons]
    exact ih _ (blurStep_cap c st0 e h)

end Yolo

namespace Yolo

/-- The well-formedness invariant used for the ordered-emission proof:
not crashed, the buffer strictly below capacity after each full
iteration, and every buffered result has a boxes object. -/
def INV9 (st : PState) : Prop :=
  st.crashed = false ∧ st.buffer.length + 1 ≤ BUFFER_FRAMES ∧
    ∀ e ∈ st.buffer, e.2.boxes ≠ none

theorem emitOldest_acct (act2 : ActSt) (buf : List (Frame × Result))
    (output : List (Frame × Result × List Int)) (hlen : buf.length ≤ BUFFER_FRAMES)
    (hboxes : ∀ e ∈ buf, e.2.boxes ≠ none) :
    INV9 (emitOldest act2 buf output) ∧
      (emitOldest act2 buf output).output.map (fun o => o.1.idx) ++
          (emitOldest act2 buf output).buffer.map (fun e => e.1.idx) =
        output.map (fun o => o.1.idx) ++ buf.map (fun e => e.1.idx) := by
  unfold emitOldest
  split_ifs with he
  · cases buf with
    | nil => exact absurd he (by decide)
    | cons e0 rest =>
      refine ⟨⟨rfl, ?_, fun e hme => hboxes e (List.mem_cons_of_mem _ hme)⟩, ?_⟩
      · show rest.length + 1 ≤ BUFFER_FRAMES
        simp only [List.length_cons] at he
        omega
      · simp
  · refine ⟨⟨rfl, ?_, hboxes⟩, by simp⟩
    show buf.length + 1 ≤ BUFFER_FRAMES
    omega

theorem blurStep_acct (c : Int) (st : PState) (inp : Frame × Result)
    (h : INV9 st) (hin : inp.2.boxes ≠ none) :
    INV9 (blurStep c st inp) ∧
      (blurStep c st inp).output.map (fun o => o.1.idx) ++
          (blurStep c st inp).buffer.map (fun e => e.1.idx) =
        st.output.map (fun o => o.1.idx) ++ st.buffer.map (fun e => e.1.idx) ++ [inp.1.idx] := by
  obtain ⟨hcr, hlen, hboxes⟩ := h
  obtain ⟨s, hpf⟩ := process_frame_ok inp.1 inp.2 c st.act hin
  have hidx : s.frame.idx = inp.1.idx := (process_frame_dims hpf).2.2
  have hb1eq : dequeAppend BUFFER_FRAMES st.buffer (s.frame, inp.2) =
      st.buffer ++ [(s.frame, inp.2)] := dequeAppend_of_lt _ (by omega)
  have hb1len : (dequeAppend BUFFER_FRAMES st.buffer (s.frame, inp.2)).length ≤ BUFFER_FRAMES := by
    rw [hb1eq]
    simp
    omega
  have hb1boxes : ∀ e ∈ dequeAppend BUFFER_FRAMES st.buffer (s.frame, inp.2),
      e.2.boxes ≠ none := by
    intro e he
    rw [hb1eq] at he
    rcases List.mem_append.mp he with he | he
    · exact hboxes e he
    · rw [List.mem_singleton] at he
      rw [he]
      exact hin
  have hb1idx : (dequeAppend BUFFER_FRAMES st.buffer (s.frame, inp.2)).map (fun e => e.1.idx) =
      st.buffer.map (fun e => e.1.idx) ++ [inp.1.idx] := by
    rw [hb1eq]
    simp [hidx]
  simp only [blurStep, hcr, Bool.false_eq_true, if_false, hpf]
  cases hne : s.new_ids.isEmpty with
  | true =>
    simp only [hne, if_true, Bool.false_eq_true, if_false]
    obtain ⟨h1, h2⟩ := emitOldest_acct (update_counters s.act) _ st.output hb1len hb1boxes
    refine ⟨h1, ?_⟩
    rw [h2, hb1idx, List.append_assoc]
  | false =>
    simp only [hne, Bool.false_eq_true, if_false]
    rcases hrf : retroFoldGo s.new_ids (dequeAppend BUFFER_FRAMES st.buffer (s.frame, inp.2))
      with ⟨buf2, flag⟩
    have hflag := retroFoldGo_no_error s.new_ids _ hb1boxes
    rw [hrf] at hflag
    subst hflag
    simp only [hrf, Bool.false_eq_true, if_false]
    have hidx2 : buf2.map (fun e => e.1.idx) =
        (dequeAppend BUFFER_FRAMES st.buffer (s.frame, inp.2)).map (fun e => e.1.idx) := by
      have h5 := retroFoldGo_idx s.new_ids (dequeAppend BUFFER_FRAMES st.buffer (s.frame, inp.2))
      rw [hrf] at h5
      exact h5
    have hlen2 : buf2.length ≤ BUFFER_FRAMES := by
      have h5 := retroFoldGo_length s.new_ids (dequeAppend BUFFER_FRAMES st.buffer (s.frame, inp.2))
      rw [hrf] at h5
      have h6 : buf2.length =
          (dequeAppend BUFFER_FRAMES st.buffer (s.frame, inp.2)).length := h5
      omega
    have hboxes2 : ∀ e ∈ buf2, e.2.boxes ≠ none := by
      intro e he
      have hsnd := retroFoldGo_snd s.new_ids (dequeAppend BUFFER_FRAMES st.buffer (s.frame, inp.2))
      rw [hrf] at hsnd
      have : e.2 ∈ buf2.map Prod.snd := List.mem_map_of_mem Prod.snd he
      rw [hsnd] at this
      rw [List.mem_map] at this
      obtain ⟨e1, he1, heq⟩ := this
      rw [← heq]
      exact hb1boxes e1 he1
    obtain ⟨h1, h2⟩ := emitOldest_acct (update_counters s.act) buf2 st.output hlen2 hboxes2
    refine ⟨h1, ?_⟩
    rw [h2, hidx2, hb1idx, List.append_assoc]

theorem run_acct (c : Int) :
    ∀ (l : List (Frame × Result)) (st0 : PState), INV9 st0 →
      (∀ e ∈ l, e.2.boxes ≠ none) →
      INV9 (l.foldl (blurStep c) st0) ∧
        (l.foldl (blurStep c) st0).output.map (fun o => o.1.idx) ++
            (l.foldl (blurStep c) st0).buffer.map (fun e => e.1.idx) =
          st0.output.map (fun o => o.1.idx) ++ st0.buffer.map (fun e => e.1.idx) ++
            l.map (fun e => e.1.idx) := by
  intro l
  induction l with
  | nil =>
    intro st0 h _
    exact ⟨h, by simp⟩
  | cons e rest ih =>
    intro st0 h hl
    rw [List.foldl_cons]
    obtain ⟨h1, h2⟩ := blurStep_acct c st0 e h (hl e (List.mem_cons_self _ _))
    obtain ⟨h3, h4⟩ := ih (blurStep c st0 e) h1 (fun x hx => hl x (List.mem_cons_of_mem _ hx))
    refine ⟨h3, ?_⟩
    rw [h4, h2]
    simp [List.append_assoc]

end Yolo

/-- Claim C9: throughout any run of the confidence-mode blur_video the
frame buffer never exceeds BUFFER_FRAMES entries (first conjunct: after
any prefix of the loop), and — whenever every result carries a boxes
object, so no iteration raises — every input frame is written to the
output exactly once and in input order: the sequence of written frame
indices is exactly the input sequence of frame indices (second
conjunct).  Frames leave only via the capacity pop or the final in-order
flush. -/
theorem C9_buffer_capacity_order :
    (∀ (stream : List (Frame × Result)) (c : Int) (k : Nat),
        ((stream.take k).foldl (Yolo.blurStep c) Yolo.initSt).buffer.length ≤
          Yolo.BUFFER_FRAMES) ∧
      (∀ (stream : List (Frame × Result)) (c : Int), (∀ e ∈ stream, e.2.boxes ≠ none) →
        (Yolo.blur_video stream c).output.map (fun o => o.1.idx) =
          stream.map (fun e => e.1.idx)) := by
  constructor
  · intro stream c k
    exact Yolo.run_cap c (stream.take k) Yolo.initSt (by simp [Yolo.initSt])
  · intro stream c hboxes
    cases stream with
    | nil => rfl
    | cons e0 rest =>
      obtain ⟨⟨hcr, _, _⟩, hacct⟩ := Yolo.run_acct c (e0 :: rest) Yolo.initSt
        ⟨rfl, by decide, fun e he => absurd he (List.not_mem_nil e)⟩ hboxes
      simp only [Yolo.blur_video, hcr, Bool.false_eq_true, if_false]
      simp only [Yolo.initSt, List.map_nil, List.nil_append] at hacct
      simp only [List.map_append, List.map_map]
      rw [← hacct]
      congr 1

/-- A two-frame stream (one frame with an empty detection list, one with
ids missing) for the C9 witness. -/
def C9stream : List (Frame × Result) :=
  [(⟨0, 4, 4, []⟩, ⟨some (.withIds [])⟩), (⟨1, 4, 4, []⟩, ⟨some (.noIds [])⟩)]

/-- Claim C9 witness: both conjuncts evaluated on the concrete two-frame
stream. -/
theorem C9_witness :
    ((C9stream.take 1).foldl (Yolo.blurStep 50) Yolo.initSt).buffer.length ≤
        Yolo.BUFFER_FRAMES ∧
      (Yolo.blur_video C9stream 50).output.map (fun o => o.1.idx) =
        C9stream.map (fun e => e.1.idx) :=
  ⟨C9_buffer_capacity_order.1 C9stream 50 1, C9_buffer_capacity_order.2 C9stream 50 (by decide)⟩

namespace Extract

/-- The detections of a result as _extract_unique_tracks iterates them
(empty when boxes or ids are missing). -/
def detsOfE (r : ResultE) : List DetE :=
  match r.boxes with
  | some (some dets) => dets
  | _ => []

/-- All track ids occurring (with ids available) in a stream, in order of
appearance with repetitions. -/
def occurringIds (results : List ResultE) : List Int :=
  results.flatMap (fun r => (detsOfE r).map (fun d => d.track_id))

theorem insertRec_perm (x : TrackRec) : ∀ l : List TrackRec, (insertRec x l).Perm (x :: l) := by
  intro l
  induction l with
  | nil => exact List.Perm.refl _
  | cons y ys ih =>
    unfold insertRec
    split_ifs with hle
    · exact List.Perm.refl _
    · exact (ih.cons y).trans (List.Perm.swap x y ys)

theorem sortRecs_perm : ∀ l : List TrackRec, (sortRecs l).Perm l := by
  intro l
  induction l with
  | nil => exact List.Perm.refl _
  | cons x xs ih =>
    unfold sortRecs
    exact (insertRec_perm x (sortRecs xs)).trans (ih.cons x)

theorem addFrame_step_nodup (fps : Int) (i : Nat) (r : ResultE) (dets : List DetE) :
    ∀ acc : List TrackRec, (acc.map (fun rec => rec.track_id)).Nodup →
      ((dets.foldl
          (fun a d =>
            if a.any (fun rec => rec.track_id = d.track_id) then a
            else a ++ [buildRec fps i r d]) acc).map (fun rec => rec.track_id)).Nodup := by
  induction dets with
  | nil => intro acc h; exact h
  | cons d ds ih =>
    intro acc h
    rw [List.foldl_cons]
    by_cases hany : acc.any (fun rec => decide (rec.track_id = d.track_id))
    · rw [if_pos hany]
      exact ih acc h
    · rw [if_neg hany]
      refine ih _ ?_
      rw [List.map_append]
      rw [List.nodup_append]
      refine ⟨h, List.nodup_singleton _, ?_⟩
      intro t ht ht2
      simp only [List.map_cons, List.map_nil, List.mem_singleton] at ht2
      subst ht2
      rw [List.mem_map] at ht
      obtain ⟨rec, hrec, hrecid⟩ := ht
      refine hany ?_
      rw [List.any_eq_true]
      exact ⟨rec, hrec, by simp [hrecid, buildRec]⟩

theorem addFrame_nodup (fps : Int) (i : Nat) (r : ResultE) (acc : List TrackRec)
    (h : (acc.map (fun rec => rec.track_id)).Nodup) :
    ((addFrame fps i r acc).map (fun rec => rec.track_id)).Nodup := by
  unfold addFrame
  match hb : r.boxes with
  | none => exact h
  | some none => exact h
  | some (some dets) => exact addFrame_step_nodup fps i r dets acc h

theorem goFrames_nodup (fps : Int) :
    ∀ (rs : List ResultE) (i : Nat) (acc : List TrackRec),
      (acc.map (fun rec => rec.track_id)).Nodup →
      ((goFrames fps i rs acc).map (fun rec => rec.track_id)).Nodup := by
  intro rs
  induction rs with
  | nil => intro i acc h; exact h
  | cons r rest ih =>
    intro i acc h
    exact ih (i + 1) _ (addFrame_nodup fps i r acc h)

theorem addFrame_step_mem (fps : Int) (i : Nat) (r : ResultE) (dets : List DetE) (t : Int) :
    ∀ acc : List TrackRec,
      ((∃ rec ∈ dets.foldl
          (fun a d =>
            if a.any (fun rec => rec.track_id = d.track_id) then a
            else a ++ [buildRec fps i r d]) acc, rec.track_id = t) ↔
        (∃ rec ∈ acc, rec.track_id = t) ∨ ∃ d ∈ dets, d.track_id = t) := by
  induction dets with
  | nil =>
    intro acc
    simp
  | cons d ds ih =>
    intro acc
    rw [List.foldl_cons]
    by_cases hany : acc.any (fun rec => decide (rec.track_id = d.track_id))
    · rw [if_pos hany]
      rw [ih acc]
      constructor
      · rintro (h | h)
        · exact Or.inl h
        · exact Or.inr (by obtain ⟨d0, hd0, hid⟩ := h; exact ⟨d0, List.mem_cons_of_mem _ hd0, hid⟩)
      · rintro (h | ⟨d0, hd0, hid⟩)
        · exact Or.inl h
        · rcases List.mem_cons.mp hd0 with rfl | hd0
          · rw [List.any_eq_true] at hany
            obtain ⟨rec, hrec, heq⟩ := hany
            rw [decide_eq_true_eq] at heq
            exact Or.inl ⟨rec, hrec, heq.trans hid⟩
          · exact Or.inr ⟨d0, hd0, hid⟩
    · rw [if_neg hany]
      rw [ih _]
      constructor
      · rintro (h | h)
        · obtain ⟨rec, hrec, hid⟩ := h
          rcases List.mem_append.mp hrec with hrec | hrec
          · exact Or.inl ⟨rec, hrec, hid⟩
          · rw [List.mem_singleton] at hrec
            subst hrec
            exact Or.inr ⟨d, List.mem_cons_self _ _, hid⟩
        · exact Or.inr (by obtain ⟨d0, hd0, hid⟩ := h; exact ⟨d0, List.mem_cons_of_mem _ hd0, hid⟩)
      · rintro (h | ⟨d0, hd0, hid⟩)
        · obtain ⟨rec, hrec, hid⟩ := h
          exact Or.inl ⟨rec, List.mem_append.mpr (Or.inl hrec), hid⟩
        · rcases List.mem_cons.mp hd0 with heq | hd0
          · refine Or.inl ⟨buildRec fps i r d, List.mem_append.mpr (Or.inr (List.mem_singleton.mpr rfl)), ?_⟩
            show d.track_id = t
            rw [← heq]
            exact hid
          · exact Or.inr ⟨d0, hd0, hid⟩

theorem addFrame_mem (fps : Int) (i : Nat) (r : ResultE) (acc : List TrackRec) (t : Int) :
    (∃ rec ∈ addFrame fps i r acc, rec.track_id = t) ↔
      (∃ rec ∈ acc, rec.track_id = t) ∨ ∃ d ∈ detsOfE r, d.track_id = t := by
  unfold addFrame detsOfE
  match hb : r.boxes with
  | none => simp
  | some none => simp
  | some (some dets) => exact addFrame_step_mem fps i r dets t acc

theorem goFrames_mem (fps : Int) (t : Int) :
    ∀ (rs : List ResultE) (i : Nat) (acc : List TrackRec),
      ((∃ rec ∈ goFrames fps i rs acc, rec.track_id = t) ↔
        (∃ rec ∈ acc, rec.track_id = t) ∨ t ∈ occurringIds rs) := by
  intro rs
  induction rs with
  | nil =>
    intro i acc
    simp [goFrames, occurringIds]
  | cons r rest ih =>
    intro i acc
    show (∃ rec ∈ goFrames fps (i + 1) rest (addFrame fps i r acc), rec.track_id = t) ↔ _
    rw [ih (i + 1) (addFrame fps i r acc)]
    rw [addFrame_mem]
    unfold occurringIds
    rw [List.flatMap_cons]
    constructor
    · rintro ((h | h) | h)
      · exact Or.inl h
      · refine Or.inr (List.mem_append.mpr (Or.inl ?_))
        rw [List.mem_map]
        obtain ⟨d, hd, hid⟩ := h
        exact ⟨d, hd, hid⟩
      · exact Or.inr (List.mem_append.mpr (Or.inr h))
    · rintro (h | h)
      · exact Or.inl (Or.inl h)
      · rcases List.mem_append.mp h with h | h
        · rw [List.mem_map] at h
          obtain ⟨d, hd, hid⟩ := h
          exact Or.inl (Or.inr ⟨d, hd, hid⟩)
        · exact Or.inr h

end Extract

namespace Extract

theorem foldl_map_congr {α β : Type} (gm : β → β) (f1 f2 : α → β → α)
    (h : ∀ (a : α) (d : β), f1 a (gm d) = f2 a d) :
    ∀ (l : List β) (a : α), (l.map gm).foldl f1 a = l.foldl f2 a := by
  intro l
  induction l with
  | nil => intro a; rfl
  | cons d ds ih =>
    intro a
    rw [List.map_cons, List.foldl_cons, List.foldl_cons, h]
    exact ih _

theorem addFrame_mapConf (g : Int → Int) (fps : Int) (i : Nat) (r : ResultE) :
    ∀ acc : List TrackRec,
      addFrame fps i
        { r with boxes := r.boxes.map (fun ob => ob.map (fun dets =>
            dets.map (fun d => { d with conf := g d.conf }))) } acc = addFrame fps i r acc := by
  obtain ⟨rb, rn, ro⟩ := r
  match rb with
  | none => intro acc; rfl
  | some none => intro acc; rfl
  | some (some dets) =>
    intro acc
    exact foldl_map_congr (fun d => { d with conf := g d.conf })
      (fun a d => if a.any (fun rec => rec.track_id = d.track_id) then a
        else a ++ [buildRec fps i
          ⟨some (some (dets.map (fun d => { d with conf := g d.conf }))), rn, ro⟩ d])
      (fun a d => if a.any (fun rec => rec.track_id = d.track_id) then a
        else a ++ [buildRec fps i ⟨some (some dets), rn, ro⟩ d])
      (fun a d => rfl) dets acc

theorem goFrames_mapConf (g : Int → Int) (fps : Int) :
    ∀ (rs : List ResultE) (i : Nat) (acc : List TrackRec),
      goFrames fps i (mapConf g rs) acc = goFrames fps i rs acc := by
  intro rs
  induction rs with
  | nil => intro i acc; rfl
  | cons r rest ih =>
    intro i acc
    show goFrames fps (i + 1) (mapConf g rest) (addFrame fps i _ acc) = _
    rw [addFrame_mapConf g fps i r acc]
    exact ih (i + 1) _

end Extract

/-- The C8 stream: track 1 appears on frame 0 with confidence 30 and
bbox (0,0,2,2), and again on frame 1 with the higher confidence 90 and a
different bbox (1,1,3,3). -/
def C8a : List Extract.ResultE :=
  [⟨some (some [⟨⟨0, 0, 2, 2⟩, 0, 30, 1⟩]), [(0, "credit_card")], some (4, 4)⟩,
   ⟨some (some [⟨⟨1, 1, 3, 3⟩, 0, 90, 1⟩]), [(0, "credit_card")], some (4, 4)⟩]

/-- A stream identical to C8a except that the frame-1 confidence of
track 1 is 40 instead of 90. -/
def C8b : List Extract.ResultE :=
  [⟨some (some [⟨⟨0, 0, 2, 2⟩, 0, 30, 1⟩]), [(0, "credit_card")], some (4, 4)⟩,
   ⟨some (some [⟨⟨1, 1, 3, 3⟩, 0, 40, 1⟩]), [(0, "credit_card")], some (4, 4)⟩]

/-- Claim C8 counterexample: the streams C8a and C8b differ only in a
later detection's confidence for track 1 (best observed confidence 90
vs 40), yet _extract_unique_tracks returns byte-identical outputs on
them — so its records cannot carry "the best (maximum) confidence
observed over all of that track's detections"; the function skips every
detection of an already-seen track without ever reading a confidence. -/
theorem C8_counterexample :
    Extract.extract_unique_tracks C8a 30 = Extract.extract_unique_tracks C8b 30 ∧
      Extract.best_observed_confidence_spec C8a 1 = some 90 ∧
      Extract.best_observed_confidence_spec C8b 1 = some 40 ∧
      C8a ≠ C8b :=
  ⟨rfl, by decide, by decide, by decide⟩

/-- Claim C8 (amended): _extract_unique_tracks returns exactly one
representative record per distinct track id — for every stream the
returned track ids [(b)] are duplicate-free and [(c)] cover precisely the
ids that occur with tracking available — and that record is built from
the track's FIRST detection (earliest frame, earliest within the frame),
carrying its first-seen frame/timestamp, bbox and crop; [(a)] detection
confidences are never consulted (any rewriting of all confidences leaves
the output unchanged), so no best-confidence value is recorded; [(d),(e)]
on the concrete stream C8a the single record for track 1 is built from
the frame-0 detection, with its bbox (0,0,2,2), not the later
higher-confidence bbox. -/
theorem C8_first_detection_amended :
    (∀ (g : Int → Int) (results : List Extract.ResultE) (fps : Int),
        Extract.extract_unique_tracks (Extract.mapConf g results) fps =
          Extract.extract_unique_tracks results fps) ∧
      (∀ (results : List Extract.ResultE) (fps : Int),
        ((Extract.extract_unique_tracks results fps).map (fun rec => rec.track_id)).Nodup) ∧
      (∀ (results : List Extract.ResultE) (fps : Int) (t : Int),
        (∃ rec ∈ Extract.extract_unique_tracks results fps, rec.track_id = t) ↔
          t ∈ Extract.occurringIds results) ∧
      Extract.extract_unique_tracks C8a 30 =
        [Extract.buildRec 30 0 (C8a.headD ⟨none, [], none⟩) ⟨⟨0, 0, 2, 2⟩, 0, 30, 1⟩] ∧
      (Extract.extract_unique_tracks C8a 30).map (fun rec => rec.bbox) = [⟨0, 0, 2, 2⟩] := by
  refine ⟨?_, ?_, ?_, rfl, rfl⟩
  · intro g results fps
    unfold Extract.extract_unique_tracks
    rw [Extract.goFrames_mapConf]
  · intro results fps
    have hperm := (Extract.sortRecs_perm (Extract.goFrames fps 0 results [])).map
      (fun rec => rec.track_id)
    refine hperm.nodup_iff.mpr ?_
    exact Extract.goFrames_nodup fps results 0 [] (by simp)
  · intro results fps t
    unfold Extract.extract_unique_tracks
    constructor
    · rintro ⟨rec, hrec, hid⟩
      have hrec2 := (Extract.sortRecs_perm (Extract.goFrames fps 0 results [])).mem_iff.mp hrec
      exact (Extract.goFrames_mem fps t results 0 []).mp ⟨rec, hrec2, hid⟩
        |>.resolve_left (by rintro ⟨rec2, hrec2, _⟩; exact absurd hrec2 (List.not_mem_nil rec2))
    · intro ht
      obtain ⟨rec, hrec, hid⟩ := (Extract.goFrames_mem fps t results 0 []).mpr (Or.inr ht)
      exact ⟨rec, (Extract.sortRecs_perm (Extract.goFrames fps 0 results [])).mem_iff.mpr hrec, hid⟩
